import Mathlib

/-!
# Verification of the road-network router of the Eyy ride-hailing app

This file gives a shallow embedding, in Lean 4, of the client-side road
network router of the repository (the `PathFinder` classes and fare
helpers), and proves or refutes the specification claims about it.

The repository contains three divergent `PathFinder` implementations:
* the full OSM-based one (file `part_004`), embedded in namespace `P004`;
* a simplified one (`Eyy/utils/pathfinding.ts`), embedded in namespace `PW`;
* a variant delegating to a standalone `dijkstra` helper
  (`Eyy/utils/dijkstra.ts`), embedded in namespace `DJ`.

Modelling conventions, shared by all namespaces:
* JavaScript numbers are modelled as `ℚ`.  The value `Infinity` is
  modelled as `none` in an `Option ℚ` wherever the source can produce or
  store it (Dijkstra distance tables, edge weights).
* JavaScript objects used as string-keyed dictionaries are modelled as
  association lists `List (String × _)` in insertion order, which is the
  enumeration order of the source's `for … in` / `Object.keys` loops for
  the non-numeric keys used here; `delete` is modelled by `List.filter`.
* The haversine distance `calculateDistance` uses floating-point
  trigonometry and is therefore not expressible over `ℚ`; functions that
  merely *consume* distances take the metric as an explicit oracle
  argument `dOracle : Point → Point → ℚ`.  All theorems proved about such
  functions hold for every oracle (or every non-negative oracle, stated
  explicitly), hence in particular for the haversine metric.
* Unbounded `while` loops are modelled with an explicit fuel argument
  large enough, by construction of the loop, for every terminating run of
  the source; each such definition documents its fuel bound.
-/

/-- A WGS84 coordinate pair, as in the `Point` interface shared by all
`PathFinder` variants (`latitude`/`longitude` in degrees). -/
structure Point where
  latitude : ℚ
  longitude : ℚ
deriving DecidableEq, Repr

namespace P004

/-! ## Fare constants and `calculateFare` (part_004, lines 52-56 and 631-637) -/

/-- `private readonly BASE_FARE = 15` (part_004 line 53). -/
def BASE_FARE : ℚ := 15

/-- `private readonly RATE_PER_KM = 11` (part_004 line 54). -/
def RATE_PER_KM : ℚ := 11

/-- `private readonly BASE_KM = 1` (part_004 line 55). -/
def BASE_KM : ℚ := 1

/-- `PathFinder.calculateFare` (part_004 lines 631-637): base fare up to
`BASE_KM` kilometres, then linear in the excess distance. -/
def calculateFare (distance : ℚ) : ℚ :=
  if distance ≤ BASE_KM then BASE_FARE
  else BASE_FARE + (distance - BASE_KM) * RATE_PER_KM

/-! ## Graph data model (part_004 lines 10-14, 42-45)

`GraphNode.neighbors` maps a neighbour id to the edge weight.  The weight
is a JavaScript number that the builder can set to `Infinity` (line 288),
so it is modelled as `Option ℚ` with `none = Infinity`. -/

/-- A graph node: its coordinates and its neighbour-to-weight map, in
insertion order (part_004 `GraphNode`).  The `id` field of the source is
the association-list key and is not duplicated here. -/
structure GNode where
  point : Point
  neighbors : List (String × Option ℚ)
deriving DecidableEq, Repr

/-- `this.nodes`: the graph, keyed by node id in insertion order. -/
abbrev Graph := List (String × GNode)

/-- Key lookup in `this.nodes`. -/
def lookupNode (g : Graph) (id : String) : Option GNode :=
  g.lookup id

/-! ## Speed limits and edge weights (part_004 lines 59-79, 285-295, 309-317) -/

/-- `private readonly ROAD_TYPES.MOTORWAY` (part_004 line 60). -/
def MOTORWAY : List String := ["motorway", "motorway_link"]

/-- `private readonly AVERAGE_SPEED_KMH = 40` (part_004 line 56). -/
def AVERAGE_SPEED_KMH : ℚ := 40

/-- `private readonly DEFAULT_SPEEDS` lookup table (part_004 lines 69-79),
as a partial map returning `none` for unknown road classes (JavaScript
property access yielding `undefined`). -/
def DEFAULT_SPEEDS (roadType : String) : Option ℚ :=
  match roadType with
  | "motorway" => some 100
  | "trunk" => some 80
  | "primary" => some 60
  | "secondary" => some 50
  | "tertiary" => some 40
  | "residential" => some 30
  | "service" => some 20
  | "unclassified" => some 30
  | "living_street" => some 15
  | _ => none

/-- `PathFinder.getSpeedLimit` (part_004 lines 309-317).  The source first
tries `parseInt(tags.maxspeed)` and accepts it when it is a number
greater than zero; we take the outcome of the truthiness test on the tag
and of `parseInt` as the input `maxspeedParsed` (`none` = tag absent or
falsy; `some none` = `parseInt` returned `NaN`; `some (some n)` = parsed
integer `n`).  Otherwise it falls back to
`DEFAULT_SPEEDS[roadType || 'unclassified'] || AVERAGE_SPEED_KMH`; both
`||` fallbacks are modelled by their JavaScript falsiness semantics
(`undefined` and `0` are falsy; no entry of `DEFAULT_SPEEDS` is `0`). -/
def defaultSpeed (highway : Option String) : ℚ :=
  let key := match highway with
    | none => "unclassified"
    | some s => if s = "" then "unclassified" else s
  match DEFAULT_SPEEDS key with
  | some v => if v = 0 then AVERAGE_SPEED_KMH else v
  | none => AVERAGE_SPEED_KMH

/-- `PathFinder.getSpeedLimit`, continued: the explicit-tag branch, falling
back to `defaultSpeed` exactly when the tag is absent, unparseable, or not
greater than zero. -/
def getSpeedLimit (maxspeedParsed : Option (Option ℤ)) (highway : Option String) : ℚ :=
  match maxspeedParsed with
  | some (some n) =>
    if 0 < n then (n : ℚ) else defaultSpeed highway
  | _ => defaultSpeed highway

/-- The edge-weight computation of `buildGraphFromOSM` (part_004 lines
285-288): `effectiveSpeedMps = speedLimit * 1000 / 3600`;
`weight = effectiveSpeedMps > 0 ? distance / effectiveSpeedMps : Infinity`.
`none` models `Infinity`; `distance` is the haversine distance of the two
endpoints in meters. -/
def computeEdgeWeight (speedLimitKmh : ℚ) (distance : ℚ) : Option ℚ :=
  let effectiveSpeedMps := speedLimitKmh * 1000 / 3600
  if 0 < effectiveSpeedMps then some (distance / effectiveSpeedMps) else none

/-! ## `addNode` (part_004 lines 336-344): guarded, idempotent insert -/

/-- `PathFinder.addNode` (part_004): inserts a fresh node with an empty
neighbour map only when the id is not yet present (`if (!this.nodes[id])`);
insertion appends, matching JavaScript property insertion order. -/
def addNode (g : Graph) (id : String) (p : Point) : Graph :=
  if (lookupNode g id).isSome then g
  else g ++ [(id, ⟨p, []⟩)]

/-! ## One-way inference (part_004 lines 325-329) -/

/-- The relevant OSM way tags consumed by `isOneWayStreet` (`none` models
an absent tag). -/
structure WayTags where
  oneway : Option String
  junction : Option String
deriving DecidableEq, Repr

/-- `PathFinder.isOneWayStreet` (part_004 lines 325-329):
`tags.oneway === 'yes' || tags.junction === 'roundabout' ||
ROAD_TYPES.MOTORWAY.includes(roadType)`. -/
def isOneWayStreet (tags : WayTags) (roadType : String) : Bool :=
  tags.oneway == some "yes" ||
  tags.junction == some "roundabout" ||
  MOTORWAY.contains roadType

/-! ## Edge addition per way (part_004 lines 264-298)

`buildGraphFromOSM` walks each way's consecutive node-id pairs; for every
pair whose two OSM nodes exist and are present in the graph it computes
the weight and issues `addEdge(node1, node2, weight)`, plus the reverse
call when the way is not one-way.  `edgeCalls` records the sequence of
`addEdge` calls issued for one way, in order. -/

/-- Graph node id of an OSM node id: `` `osm_${id}` ``. -/
def osmId (s : String) : String := "osm_" ++ s

/-- The `addEdge` calls issued by the way loop of `buildGraphFromOSM` for
a way with node list `ns`, one-way flag `ow` (the computed
`isOneWayStreet` result) and speed limit `sp`; `dOracle` stands for the
haversine metric `calculateDistance` and `osm` for `this.osmNodes`. -/
def edgeCalls (dOracle : Point → Point → ℚ) (osm : List (String × Point)) (g : Graph)
    (sp : ℚ) (ow : Bool) : List String → List (String × String × Option ℚ)
  | a :: b :: rest =>
    (match osm.lookup a, osm.lookup b, lookupNode g (osmId a), lookupNode g (osmId b) with
     | some p1, some p2, some _, some _ =>
       let w := computeEdgeWeight sp (dOracle p1 p2)
       if ow then [(osmId a, osmId b, w)]
       else [(osmId a, osmId b, w), (osmId b, osmId a, w)]
     | _, _, _, _ => []) ++ edgeCalls dOracle osm g sp ow (b :: rest)
  | _ => []

/-- Specification-side description (from the spec's words) of the forward
directed edges of a way: one edge per consecutive pair both of whose
endpoints exist as OSM nodes and as graph nodes, weighted by travel
time. -/
def specForwardEdges (dOracle : Point → Point → ℚ) (osm : List (String × Point)) (g : Graph)
    (sp : ℚ) : List String → List (String × String × Option ℚ)
  | a :: b :: rest =>
    (match osm.lookup a, osm.lookup b, lookupNode g (osmId a), lookupNode g (osmId b) with
     | some p1, some p2, some _, some _ =>
       [(osmId a, osmId b, computeEdgeWeight sp (dOracle p1 p2))]
     | _, _, _, _ => []) ++ specForwardEdges dOracle osm g sp (b :: rest)
  | _ => []

/-- Specification-side one-way predicate, literally from the spec
sentence: explicitly tagged `yes`, or motorway-like class, or tagged as a
roundabout. -/
def specOneWay (tags : WayTags) (roadType : String) : Prop :=
  tags.oneway = some "yes" ∨ roadType ∈ MOTORWAY ∨ tags.junction = some "roundabout"

/-! ## Connectivity validation (part_004 lines 369-429)

`validateGraphConnectivity` runs a BFS from the first node id of
`this.nodes`, then deletes every node its traversal did not visit, and
for each deleted id also deletes the neighbour entries keyed by it from
the surviving nodes — but only when the entry is *truthy*
(`if (node.neighbors[id])`), so an entry with weight `0` would be
skipped.  The sparse-graph average-degree check at the end only logs and
is not modelled. -/

/-- JavaScript truthiness of a neighbour-map access `node.neighbors[id]`:
`undefined` (absent key) and `0` are falsy; `Infinity` (`none` weight) is
truthy. -/
def entryTruthy : Option (Option ℚ) → Bool
  | none => false
  | some none => true
  | some (some w) => w != 0

/-- `if (node.neighbors[id]) delete node.neighbors[id]` for one node. -/
def removeNbrRef (n : GNode) (id : String) : GNode :=
  if entryTruthy (n.neighbors.lookup id) then
    { n with neighbors := n.neighbors.filter (fun e => e.1 != id) }
  else n

/-- `delete this.nodes[id]`. -/
def deleteNode (g : Graph) (id : String) : Graph :=
  g.filter (fun e => e.1 != id)

/-- The isolated-node removal loop (part_004 lines 404-413): for each
unreached id in order, delete its node, then scrub truthy references to
it from every remaining node. -/
def cleanupIsolated (g : Graph) (iso : List String) : Graph :=
  iso.foldl (fun g2 id => (deleteNode g2 id).map (fun e => (e.1, removeNbrRef e.2 id))) g

/-- One queue step's neighbour enqueueing (part_004 lines 395-400): each
not-yet-visited neighbour id is marked visited and pushed to the back of
the queue. -/
def enqueueNbrs (nbrs : List (String × Option ℚ)) (qv : List String × List String) :
    List String × List String :=
  nbrs.foldl (fun qv2 e => if e.1 ∈ qv2.2 then qv2 else (qv2.1 ++ [e.1], e.1 :: qv2.2)) qv

/-- The BFS loop (part_004 lines 388-401), with an explicit fuel.  Each
iteration pops one queue element, and an id is enqueued only at the
moment it is first added to the visited set, so the number of iterations
is bounded by one more than the number of ids ever visited; the callers
pass `bfsFuel`, which exceeds that bound. -/
def bfsAux (g : Graph) : Nat → List String → List String → List String
  | 0, _, vis => vis
  | _ + 1, [], vis => vis
  | fuel + 1, c :: q, vis =>
    match lookupNode g c with
    | none => bfsAux g fuel q vis
    | some n =>
      match enqueueNbrs n.neighbors (q, vis) with
      | (q2, vis2) => bfsAux g fuel q2 vis2

/-- All neighbour-map keys occurring anywhere in the graph. -/
def allNbrKeys (g : Graph) : List String :=
  g.flatMap (fun e => e.2.neighbors.map Prod.fst)

/-- Fuel bound for `bfsAux`: `1` initial queue entry plus at most one
enqueue per distinct neighbour key (plus slack `g.length`). -/
def bfsFuel (g : Graph) : Nat :=
  1 + g.length + (allNbrKeys g).length

/-- The visited set computed by the reachability traversal of
`validateGraphConnectivity`, started (queue and visited alike) from the
first node id; empty for the empty graph, which the source leaves
untouched. -/
def bfsVisited (g : Graph) : List String :=
  match g.head? with
  | none => []
  | some hd => bfsAux g (bfsFuel g) [hd.1] [hd.1]

/-- `const isolatedNodes = Object.keys(this.nodes).filter(id => !visited.has(id))`
(part_004 line 404). -/
def isolatedIds (g : Graph) : List String :=
  (g.map Prod.fst).filter (fun id => !((bfsVisited g).contains id))

/-- `PathFinder.validateGraphConnectivity` (part_004 lines 369-429): the
empty graph is returned unchanged (early return), otherwise the isolated
nodes are removed as described above. -/
def validateGraphConnectivity (g : Graph) : Graph :=
  match g.head? with
  | none => g
  | some _ => cleanupIsolated g (isolatedIds g)

/-- Directed adjacency in a part_004 graph: node `a` exists and holds a
neighbour entry keyed `b` (of any weight, `Infinity` included). -/
def hasNbr (g : Graph) (a b : String) : Bool :=
  match lookupNode g a with
  | none => false
  | some n => (n.neighbors.lookup b).isSome

/-- Decidable check used by the C3 counterexample: `v` is an isolated
node of `g` — it exists, has no outgoing neighbour entries, and no node
of `g` has a neighbour entry keyed `v`. -/
def isIsolatedNode (g : Graph) (v : String) : Bool :=
  (match lookupNode g v with
   | none => false
   | some n => n.neighbors.isEmpty) &&
  g.all (fun e => (e.2.neighbors.lookup v).isNone)

end P004

namespace P001

/-! ## `calculateEstimatedFare` (part_001 lines 521-529)

The commuter screen's fare estimator: `baseFare = 15`, `perKmRate = 5`,
`minimumFare = 15`; the fare is `baseFare + distanceKm * perKmRate`
clamped from below by `minimumFare`.  Its input is a distance in meters
(the screen passes a haversine distance); the meters-to-kilometres
division by 1000 is part of the function. -/

def baseFare : ℚ := 15

def perKmRate : ℚ := 5

def minimumFare : ℚ := 15

/-- `calculateEstimatedFare` of part_001, with the haversine distance of
the two endpoints (in meters) taken as the input. -/
def calculateEstimatedFare (distanceMeters : ℚ) : ℚ :=
  max (baseFare + distanceMeters / 1000 * perKmRate) minimumFare

end P001

namespace PW

/-! ## The simplified `PathFinder` of `Eyy/utils/pathfinding.ts`

Its `GraphNode.neighbors` maps a neighbour id to a finite haversine
distance, so weights are plain `ℚ` here. -/

/-- `GraphNode` of pathfinding.ts (lines 6-10). -/
structure GraphNode where
  point : Point
  neighbors : List (String × ℚ)
deriving DecidableEq, Repr

/-- `this.nodes` of pathfinding.ts, keyed by node id in insertion order. -/
abbrev Graph := List (String × GraphNode)

/-- Key lookup in `this.nodes`. -/
def lookupNode (g : Graph) (id : String) : Option GraphNode :=
  g.lookup id

/-- `PathFinder.addNode` of pathfinding.ts (lines 141-147): an
*unconditional* assignment `this.nodes[id] = { id, point, neighbors: {} }`.
When the key exists the value is replaced in place (JavaScript keeps the
original insertion position); otherwise the entry is appended. -/
def addNode (g : Graph) (id : String) (p : Point) : Graph :=
  if (lookupNode g id).isSome then
    g.map (fun e => if e.1 = id then (id, ⟨p, []⟩) else e)
  else
    g ++ [(id, ⟨p, []⟩)]

/-! ## `findShortestPath` of pathfinding.ts (lines 231-355)

The linear-scan Dijkstra variant.  The distance table `distances` is a
string-keyed object initialised to `Infinity` for exactly the graph's
node ids; it is modelled as a total function `String → Option ℚ` with
`none = Infinity`, and the JavaScript behaviour on *uninitialised* keys
(`alt < undefined` is `false`, so a neighbour id that is not a graph node
is never updated) is modelled by guarding each update with membership of
the neighbour in the graph. -/

/-- The JavaScript `<` comparison on distance values, where `none` plays
`Infinity`: a finite value is below `Infinity`, `Infinity` is below
nothing. -/
def olt : Option ℚ → Option ℚ → Bool
  | some a, some b => a < b
  | some _, none => true
  | none, _ => false

/-- `distances[currentId] + weight`, with `Infinity + w = Infinity`. -/
def optAdd : Option ℚ → ℚ → Option ℚ
  | none, _ => none
  | some a, w => some (a + w)

/-- The minimum scan of the main loop (pathfinding.ts lines 258-267):
walk the unvisited ids in order keeping the first strictly-smallest
finite distance; ids at `Infinity` never beat the running minimum
(`distances[nodeId] < smallestDistance` is `false` for `Infinity`). -/
def scanMin (dist : String → Option ℚ) : List String → Option (String × ℚ) → Option (String × ℚ)
  | [], best => best
  | id :: rest, best =>
    let best2 := match dist id, best with
      | some dv, none => some (id, dv)
      | some dv, some (bid, bd) => if dv < bd then some (id, dv) else some (bid, bd)
      | none, b => b
    scanMin dist rest best2

/-- The selected `currentId` of one loop iteration, or `none` when every
unvisited node is at `Infinity` (the `smallestDistance === Infinity`
early return). -/
def findMin (dist : String → Option ℚ) (unvisited : List String) : Option (String × ℚ) :=
  scanMin dist unvisited none

/-- One neighbour relaxation (pathfinding.ts lines 287-298): skip visited
neighbours; compute `alt = distances[currentId] + weight`; update
distance and predecessor on strict improvement.  The
`(lookupNode g nbr).isSome` guard models the JavaScript no-op on
neighbour ids that are not keys of `distances` (comparison against
`undefined`). -/
def relaxStep (g : Graph) (curId : String) (visited : List String)
    (s : (String → Option ℚ) × (String → Option String)) (e : String × ℚ) :
    (String → Option ℚ) × (String → Option String) :=
  if e.1 ∈ visited then s
  else if (lookupNode g e.1).isSome then
    if olt (optAdd (s.1 curId) e.2) (s.1 e.1) then
      (fun x => if x = e.1 then optAdd (s.1 curId) e.2 else s.1 x,
       fun x => if x = e.1 then some curId else s.2 x)
    else s
  else s

/-- Relax all neighbours of `curId` in neighbour-map order. -/
def relaxAll (g : Graph) (curId : String) (visited : List String)
    (dist : String → Option ℚ) (prev : String → Option String) :
    (String → Option ℚ) × (String → Option String) :=
  match lookupNode g curId with
  | none => (dist, prev)
  | some n => n.neighbors.foldl (relaxStep g curId visited) (dist, prev)

/-- The mutable state of the main loop. -/
structure DState where
  dist : String → Option ℚ
  prev : String → Option String
  visited : List String
  unvisited : List String

/-- The main `while (unvisited.size > 0)` loop (pathfinding.ts lines
257-299).  Exits: normal exhaustion of `unvisited` or the
`currentId === endId` break return the state (`some`); the
`smallestDistance === Infinity` early return yields `none`.  Each
iteration removes the selected node from `unvisited`, so the loop runs at
most `|unvisited|` iterations; callers pass fuel `|unvisited| + 1`, which
therefore never runs out (`none` on zero fuel is dead code kept for
totality). -/
def dijkstraLoop (g : Graph) (endId : String) : Nat → DState → Option DState
  | 0, _ => none
  | fuel + 1, s =>
    if s.unvisited.isEmpty then some s
    else
      match findMin s.dist s.unvisited with
      | none => none
      | some cur =>
        if cur.1 = endId then some s
        else
          let visited2 := cur.1 :: s.visited
          let unvisited2 := s.unvisited.erase cur.1
          let dp := relaxAll g cur.1 visited2 s.dist s.prev
          dijkstraLoop g endId fuel ⟨dp.1, dp.2, visited2, unvisited2⟩

/-- Path reconstruction (pathfinding.ts lines 301-326): walk `previous`
links from the destination, prepending as the source's `unshift` does,
until the start node is reached; a `null` predecessor mid-way aborts with
`none`.  For the source's graphs the predecessor chain is acyclic and no
longer than the node count, so fuel `|nodes| + 1` never runs out; fuel
exhaustion (`none`) only replaces a run on which the source itself would
not terminate. -/
def reconstructPath (prev : String → Option String) (startId : String) :
    Nat → String → List String → Option (List String)
  | 0, _, _ => none
  | fuel + 1, cur, acc =>
    if cur = startId then some (startId :: acc)
    else
      match prev cur with
      | none => none
      | some p => reconstructPath prev startId fuel p (cur :: acc)

/-- JavaScript truthiness of a neighbour-map entry
(`!currentNode.neighbors[path[i+1]]`): falsy when the entry is absent or
its weight is `0`. -/
def truthyW : Option ℚ → Bool
  | none => false
  | some w => w != 0

/-- The final path validation (pathfinding.ts lines 334-343): every
consecutive pair must exist in the graph and be connected by a truthy
neighbour entry. -/
def validatePath (g : Graph) : List String → Bool
  | a :: b :: rest =>
    (match lookupNode g a, lookupNode g b with
     | some na, some _ => truthyW (na.neighbors.lookup b)
     | _, _ => false) && validatePath g (b :: rest)
  | _ => true

/-- The result record of `findShortestPath`.  `distance` is
`distances[endId]` at loop exit; the source returns it only after the
explicit `=== Infinity` guard, so in every returned result it is a finite
number (`isSome`). -/
structure PathResult where
  path : List String
  distance : Option ℚ
deriving DecidableEq, Repr

/-- `PathFinder.findShortestPath` of pathfinding.ts (lines 231-355). -/
def findShortestPath (isInit : Bool) (g : Graph) (startId endId : String) : Option PathResult :=
  if !isInit || (lookupNode g startId).isNone || (lookupNode g endId).isNone then none
  else
    match dijkstraLoop g endId (g.length + 1)
        ⟨fun x => if x = startId then some 0 else none, fun _ => none, [], g.map Prod.fst⟩ with
    | none => none
    | some s =>
      if (s.dist endId).isNone then none
      else
        match reconstructPath s.prev startId (g.length + 1) endId [] with
        | none => none
        | some path =>
          if path.length < 2 then none
          else if validatePath g path then some ⟨path, s.dist endId⟩
          else none

/-- Directed adjacency of the graph: `a` has a neighbour entry keyed
`b`. -/
def hasEdge (g : Graph) (a b : String) : Bool :=
  match lookupNode g a with
  | none => false
  | some n => (n.neighbors.lookup b).isSome

/-- Reachability along directed neighbour entries. -/
def Reach (g : Graph) (a b : String) : Prop :=
  Relation.ReflTransGen (fun x y => hasEdge g x y = true) a b

end PW


namespace P004

/-! ## Nearest-node search (part_004 lines 437-517)

`findNearestOsmNode` takes the haversine metric as the oracle `dOracle`
(see the file header); all claims proved about it hold for every
oracle. -/

/-- The searchable state of the part_004 `PathFinder`: the initialized
flag, the raw OSM nodes (`this.osmNodes`, id to coordinates), the node-id
lists of the stored ways (`this.osmWays[*].nodes`, the only way data this
search reads), and the graph (`this.nodes`). -/
structure PFState where
  isInit : Bool
  osmNodes : List (String × Point)
  osmWays : List (List String)
  nodes : Graph
deriving Repr

/-- `getNodeConnections` (part_004 lines 514-517): the out-degree of a
graph node, `0` when absent. -/
def getNodeConnections (g : Graph) (nodeId : String) : Nat :=
  match lookupNode g nodeId with
  | none => 0
  | some n => n.neighbors.length

/-- The `graphNodesInWays` set (part_004 lines 447-452): every way-member
OSM id, prefixed. -/
def graphNodesInWays (ways : List (List String)) : List String :=
  ways.foldl (fun acc w => acc ++ w.map osmId) []

/-- `distance <= currentRadius`, where `none` models the final
`Infinity` radius (everything is within it). -/
def withinRadius (dist : ℚ) (radius : Option ℚ) : Bool :=
  match radius with
  | none => true
  | some r => decide (dist ≤ r)

/-- `distance < minDistance`, where the running minimum starts at
`Infinity` (`none` best so far). -/
def beatsBest (dist : ℚ) (best : Option (ℚ × String)) : Bool :=
  match best with
  | none => true
  | some b => decide (dist < b.1)

/-- One radius attempt (part_004 lines 457-485): scan all OSM nodes in
order, keeping the strictly nearest one within the radius that is
connected and belongs to a way. -/
def scanRadius (dOracle : Point → Point → ℚ) (st : PFState) (inWays : List String)
    (p : Point) (radius : Option ℚ) : Option String :=
  (st.osmNodes.foldl (fun best e =>
    if withinRadius (dOracle p e.2) radius then
      if beatsBest (dOracle p e.2) best &&
          decide (0 < getNodeConnections st.nodes (osmId e.1)) &&
          inWays.contains (osmId e.1) then
        some (dOracle p e.2, osmId e.1)
      else best
    else best) none).map Prod.snd

/-- The expanding radius sequence (part_004 line 455):
`[searchRadius, searchRadius*2, searchRadius*4, Infinity]`. -/
def radiiList (searchRadius : ℚ) : List (Option ℚ) :=
  [some searchRadius, some (searchRadius * 2), some (searchRadius * 4), none]

/-- Try each radius in turn, returning at the first hit. -/
def tryRadii (dOracle : Point → Point → ℚ) (st : PFState) (inWays : List String)
    (p : Point) : List (Option ℚ) → Option String
  | [] => none
  | r :: rest =>
    match scanRadius dOracle st inWays p r with
    | some id => some id
    | none => tryRadii dOracle st inWays p rest

/-- The last resort (part_004 lines 491-505): the absolute nearest graph
node regardless of connectivity. -/
def lastResortScan (dOracle : Point → Point → ℚ) (st : PFState) (p : Point) : Option String :=
  (st.nodes.foldl (fun best e =>
    match best with
    | none => some (dOracle p e.2.point, e.1)
    | some b =>
      if dOracle p e.2.point < b.1 then some (dOracle p e.2.point, e.1) else b) none).map
    Prod.snd

/-- `PathFinder.findNearestOsmNode` (part_004 lines 437-507). -/
def findNearestOsmNode (dOracle : Point → Point → ℚ) (st : PFState) (p : Point)
    (searchRadius : ℚ) : Option String :=
  if !st.isInit || st.osmNodes.isEmpty then none
  else
    match tryRadii dOracle st (graphNodesInWays st.osmWays) p (radiiList searchRadius) with
    | some id => some id
    | none => lastResortScan dOracle st p

end P004

namespace DJ

/-! ## The dijkstra-helper `PathFinder` of `Eyy/utils/dijkstra.ts`

Node ids in this variant are stringified numbers or `i-j` grid labels;
neighbour lists carry bare ids, weights being recomputed from the metric
on conversion. -/

/-- `Node` of dijkstra.ts (lines 406-410). -/
structure DNode where
  point : Point
  neighbors : List String
deriving DecidableEq, Repr

/-- `this.nodes` of the dijkstra-helper variant. -/
abbrev DGraph := List (String × DNode)

/-- An OSM way as consumed by `buildGraph`: its node-id list, its
`tags?.oneway` value, and its `tags?.highway` road class (`none` models
an absent tag).  The dijkstra.ts builder reads only `oneway`; the road
class is carried to show (claim C6) that this builder *ignores* it. -/
structure Way where
  nodes : List String
  oneway : Option String
  highway : Option String
deriving DecidableEq, Repr

/-- The consecutive node-id pairs of a way's centreline. -/
def consecPairs : List String → List (String × String)
  | a :: b :: rest => (a, b) :: consecPairs (b :: rest)
  | _ => []

/-- The neighbour list of a node, `[]` when absent. -/
def nbrsOf (g : DGraph) (a : String) : List String :=
  match g.lookup a with
  | none => []
  | some n => n.neighbors

/-- Append `b` to the neighbour list of node `a`. -/
def pushNbr (g : DGraph) (a b : String) : DGraph :=
  g.map (fun e => if e.1 = a then (e.1, ⟨e.2.point, e.2.neighbors ++ [b]⟩) else e)

/-- `if (!graph[cur].neighbors.includes(next)) graph[cur].neighbors.push(next)`. -/
def addFwd (g : DGraph) (pr : String × String) : DGraph :=
  if (nbrsOf g pr.1).contains pr.2 then g else pushNbr g pr.1 pr.2

/-- The backward connection, added only for two-way segments. -/
def addBack (ow : Bool) (pr : String × String) (g : DGraph) : DGraph :=
  if ow then g
  else if (nbrsOf g pr.2).contains pr.1 then g else pushNbr g pr.2 pr.1

/-- One consecutive pair of `buildGraph`'s way loop (dijkstra.ts lines
541-556): both endpoints must exist; forward connection, then backward
when not one-way. -/
def addWayStep (ow : Bool) (g : DGraph) (pr : String × String) : DGraph :=
  if (g.lookup pr.1).isSome && (g.lookup pr.2).isSome then
    addBack ow pr (addFwd g pr)
  else g

/-- `PathFinder.buildGraph` (dijkstra.ts lines 525-566): initialise every
OSM node with an empty neighbour list, wire the ways (one-way exactly
when `tags?.oneway === 'yes'`), then keep only nodes with at least one
neighbour (the isolated-node filter, lines 559-565). -/
def buildGraph (osmNodes : List (String × Point)) (ways : List Way) : DGraph :=
  (ways.foldl (fun g w => (consecPairs w.nodes).foldl (addWayStep (w.oneway == some "yes")) g)
    (osmNodes.map (fun e => (e.1, (⟨e.2, []⟩ : DNode))))).filter
    (fun e => !e.2.neighbors.isEmpty)

/-- The id `` `${i}-${j}` `` of a demo grid node. -/
def gridId (i j : Nat) : String :=
  toString i ++ "-" ++ toString j

/-- The neighbour list of a demo grid node (dijkstra.ts lines 582-586):
orthogonally adjacent grid nodes, in the source's push order. -/
def gridNeighbors (i j : Nat) : List String :=
  (if 0 < i then [gridId (i - 1) j] else []) ++
  (if i < 4 then [gridId (i + 1) j] else []) ++
  (if 0 < j then [gridId i (j - 1)] else []) ++
  (if j < 4 then [gridId i (j + 1)] else [])

/-- The index pairs `(i, j)` visited by the demo builder's nested loops,
in loop order (`i` outer, `j` inner, both `0..4`). -/
def gridIndices : List (Nat × Nat) :=
  (List.range 5).flatMap (fun i => (List.range 5).map (fun j => (i, j)))

/-- `PathFinder.createDemoNetwork` (dijkstra.ts lines 571-601): a 5×5
grid (`gridSize = 5`, `step = 0.001`) centred on the requested point; one
node per index pair, pushed in loop order.  The source also sets
`this.initialized = true`; that flag is read only by the cache test of
`fetchRoadNetwork`, not by pathfinding, and is not part of the graph
value. -/
def createDemoNetwork (center : Point) : DGraph :=
  gridIndices.map (fun ij =>
    (gridId ij.1 ij.2,
     (⟨⟨center.latitude + ((ij.1 : ℚ) - 5 / 2) * (1 / 1000),
        center.longitude + ((ij.2 : ℚ) - 5 / 2) * (1 / 1000)⟩,
       gridNeighbors ij.1 ij.2⟩ : DNode)))

/-- `convertGraphToDijkstraFormat` (dijkstra.ts lines 628-640): weight
each neighbour link by the metric.  The source reads
`this.nodes[neighborId].point` and would throw on a neighbour id that is
not a node (possible after `buildGraph`'s isolated-node filter, see C5);
the `filterMap` models the defined cases, and on the demo network every
neighbour id is a node. -/
def convertGraph (dOracle : Point → Point → ℚ) (g : DGraph) :
    List (String × List (String × ℚ)) :=
  g.map (fun e => (e.1, e.2.neighbors.filterMap (fun nb =>
    (g.lookup nb).map (fun m => (nb, dOracle e.2.point m.point)))))

/-- The neighbour-weight list of a converted node. -/
def wgNbrs (wg : List (String × List (String × ℚ))) (a : String) : List (String × ℚ) :=
  (wg.lookup a).getD []

/-- Stable insertion into a distance-sorted queue: the new entry goes
after all entries with an equal or smaller distance. -/
def insertByDist (x : String × ℚ) : List (String × ℚ) → List (String × ℚ)
  | [] => [x]
  | y :: ys => if x.2 < y.2 then x :: y :: ys else y :: insertByDist x ys

/-- The queue sort of the helper's main loop
(`priorityQueue.sort((a, b) => a.distance - b.distance)`, dijkstra.ts
line 27), as a stable insertion sort — JavaScript's `sort` is stable, so
entries with equal distances keep their insertion order. -/
def sortByDist (l : List (String × ℚ)) : List (String × ℚ) :=
  l.foldl (fun acc x => insertByDist x acc) []

/-- The neighbour relaxation of one loop iteration (dijkstra.ts lines
33-42): for each neighbour, on strict improvement update the distance and
predecessor and push the new entry. -/
def djRelaxAll (wg : List (String × List (String × ℚ))) (cur : String)
    (pq : List (String × ℚ)) (dist : String → Option ℚ) (prev : String → Option String) :
    List (String × ℚ) × (String → Option ℚ) × (String → Option String) :=
  (wgNbrs wg cur).foldl (fun s e =>
    match PW.optAdd (s.2.1 cur) e.2 with
    | none => s
    | some alt =>
      if PW.olt (some alt) (s.2.1 e.1) then
        (s.1 ++ [(e.1, alt)],
         fun x => if x = e.1 then some alt else s.2.1 x,
         fun x => if x = e.1 then some cur else s.2.2 x)
      else s) (pq, dist, prev)

/-- The helper's main loop (dijkstra.ts lines 25-43): sort the queue,
shift the closest entry, stop on the destination, relax otherwise.  With
the non-negative weights the source feeds it (haversine distances), each
node's distance is final at its first non-stale pop, so the number of
pushes — and hence of iterations — is bounded by the edge count; the
callers pass `djFuel`, which exceeds that bound, and fuel exhaustion
(which exits to reconstruction exactly like the loop's own queue-empty
exit) replaces only runs on which the source itself would not
terminate. -/
def djLoop (wg : List (String × List (String × ℚ))) (endNode : String) :
    Nat → List (String × ℚ) → (String → Option ℚ) → (String → Option String) →
    (String → Option ℚ) × (String → Option String)
  | 0, _, dist, prev => (dist, prev)
  | fuel + 1, pq, dist, prev =>
    if pq.isEmpty then (dist, prev)
    else
      match sortByDist pq with
      | [] => (dist, prev)
      | cur :: rest =>
        if cur.1 = endNode then (dist, prev)
        else
          match djRelaxAll wg cur.1 rest dist prev with
          | (pq2, dist2, prev2) => djLoop wg endNode fuel pq2 dist2 prev2

/-- Fuel for `djLoop`: the total neighbour count plus slack. -/
def djFuel (wg : List (String × List (String × ℚ))) : Nat :=
  (wg.map (fun e => e.2.length)).sum + wg.length + 2

/-- The path build of `dijkstra` (lines 46-51): walk predecessors from
the destination until `null`, prepending.  The predecessor chain is
acyclic for the non-negative weights the source uses, so fuel
`|nodes| + 1` suffices; exhaustion returns the partial path, replacing
only diverging runs. -/
def djBuildPath (prev : String → Option String) :
    Nat → Option String → List String → List String
  | _, none, acc => acc
  | 0, some _, acc => acc
  | fuel + 1, some cur, acc => djBuildPath prev fuel (prev cur) (cur :: acc)

/-- The standalone `dijkstra` function (dijkstra.ts lines 10-57): returns
the distance table entry of the destination (`none` = `Infinity`) and the
reconstructed path — it never fails. -/
def dijkstra (wg : List (String × List (String × ℚ))) (startNode endNode : String) :
    Option ℚ × List String :=
  match djLoop wg endNode (djFuel wg) [(startNode, 0)]
      (fun x => if x = startNode then some 0 else none) (fun _ => none) with
  | (dist, prev) => (dist endNode, djBuildPath prev (wg.length + 1) (some endNode) [])

/-- The result of the dijkstra-helper `findShortestPath`.  The source
also derives turn-by-turn instruction strings from floating-point
bearings; that narration is outside the rational model and is not a
field here. -/
structure DPathResult where
  path : List String
  distance : Option ℚ
  coordinates : List Point
deriving DecidableEq, Repr

/-- `PathFinder.findShortestPath` of dijkstra.ts (lines 645-672): guard
on node existence, convert, run the helper, fail when the path is empty
(which never happens — the reconstruction always contains the
destination), and decorate with coordinates. -/
def findShortestPath (dOracle : Point → Point → ℚ) (g : DGraph)
    (startId endId : String) : Option DPathResult :=
  if (g.lookup startId).isNone ∨ (g.lookup endId).isNone then none
  else
    match dijkstra (convertGraph dOracle g) startId endId with
    | (dres, path) =>
      if path.isEmpty then none
      else some ⟨path, dres,
        path.filterMap (fun id => (g.lookup id).map (fun n => n.point))⟩

/-- Directed adjacency of a dijkstra-variant graph. -/
def dadj (g : DGraph) (a b : String) : Bool :=
  (nbrsOf g a).contains b

/-- Reachability along the neighbour lists. -/
def DReach (g : DGraph) (a b : String) : Prop :=
  Relation.ReflTransGen (fun x y => dadj g x y = true) a b

/-- The id-to-neighbour-list table of a graph (what reachability depends
on); on the demo network it is independent of the centre point. -/
def adjTable (g : DGraph) : List (String × List String) :=
  g.map (fun e => (e.1, e.2.neighbors))

/-- Executable breadth-first reachability over an adjacency table, used
to decide the connectivity of the demo grid. -/
def dreachAux (adj : List (String × List String)) :
    Nat → List String → List String → List String
  | 0, _, vis => vis
  | _ + 1, [], vis => vis
  | fuel + 1, c :: q, vis =>
    match adj.lookup c with
    | none => dreachAux adj fuel q vis
    | some nbrs =>
      match nbrs.foldl (fun qv b => if b ∈ qv.2 then qv else (qv.1 ++ [b], b :: qv.2)) (q, vis) with
      | (q2, vis2) => dreachAux adj fuel q2 vis2

/-- Decider: the set of ids reachable from `a` in the table. -/
def dreachFrom (adj : List (String × List String)) (a : String) : List String :=
  dreachAux adj (1 + adj.length + (adj.map (fun e => e.2.length)).sum) [a] [a]

/-- Decidable neighbour-closure check, used by the C5 counterexample:
does every neighbour id of every node exist in the graph? -/
def neighborClosed (g : DGraph) : Bool :=
  g.all (fun e => e.2.neighbors.all (fun b => (g.lookup b).isSome))

/-- The centre-independent adjacency table of the demo network. -/
def demoAdj : List (String × List String) :=
  gridIndices.map (fun ij => (gridId ij.1 ij.2, gridNeighbors ij.1 ij.2))

/-- The centre-independent id list of the demo network. -/
def demoIds : List String :=
  gridIndices.map (fun ij => gridId ij.1 ij.2)

/-- A concrete build input with two disconnected components (two-way
ways `1—2` and `3—4`), used to exhibit this variant's behaviour on an
unreachable destination. -/
def c1osm : List (String × Point) :=
  [("1", ⟨0, 0⟩), ("2", ⟨0, 1⟩), ("3", ⟨0, 2⟩), ("4", ⟨0, 3⟩)]

/-- The two ways of the disconnected build input. -/
def c1ways : List Way :=
  [⟨["1", "2"], none, some "residential"⟩, ⟨["3", "4"], none, some "residential"⟩]

/-- The graph this variant's builder produces from the disconnected
input. -/
def c1graph : DGraph := buildGraph c1osm c1ways

end DJ

/-! # Theorems -/

/-! ## Claims C2 and C9: the fare formula and its monotonicity -/

/-- C2: for every non-negative distance `d` (kilometres), the fare function
returns exactly `BASE_FARE` when `d ≤ BASE_KM`, returns
`BASE_FARE + (d - BASE_KM) * RATE_PER_KM` otherwise, and is never below
the configured minimum fare (the repository's configured `minimumFare`
constant, 15, which also equals the base fare). -/
theorem c2_calculateFare_formula (d : ℚ) (hd : 0 ≤ d) :
    (d ≤ P004.BASE_KM → P004.calculateFare d = P004.BASE_FARE) ∧
    (P004.BASE_KM < d →
      P004.calculateFare d = P004.BASE_FARE + (d - P004.BASE_KM) * P004.RATE_PER_KM) ∧
    P001.minimumFare ≤ P004.calculateFare d := by
  refine ⟨fun h => ?_, fun h => ?_, ?_⟩
  · simp [P004.calculateFare, h]
  · simp [P004.calculateFare, not_le.mpr h, le_of_lt h]
  · unfold P004.calculateFare P004.BASE_FARE P004.BASE_KM P004.RATE_PER_KM P001.minimumFare
    split
    · exact le_refl _
    · nlinarith [hd]

/-- Witness for C2 at the concrete distance d = 3 km. -/
theorem c2_calculateFare_formula_witness :
    (3 ≤ P004.BASE_KM → P004.calculateFare 3 = P004.BASE_FARE) ∧
    (P004.BASE_KM < 3 →
      P004.calculateFare 3 = P004.BASE_FARE + (3 - P004.BASE_KM) * P004.RATE_PER_KM) ∧
    P001.minimumFare ≤ P004.calculateFare 3 :=
  c2_calculateFare_formula 3 (by norm_num)

/-- C9: the fare function is monotone: `d1 ≤ d2` implies
`calculateFare d1 ≤ calculateFare d2`. -/
theorem c9_calculateFare_monotone (d1 d2 : ℚ) (h : d1 ≤ d2) :
    P004.calculateFare d1 ≤ P004.calculateFare d2 := by
  unfold P004.calculateFare P004.BASE_FARE P004.BASE_KM P004.RATE_PER_KM
  split <;> split <;> rename_i h1 h2
  · exact le_refl _
  · nlinarith
  · nlinarith
  · nlinarith

/-- Witness for C9 at the concrete pair (0.5, 4). -/
theorem c9_calculateFare_monotone_witness :
    P004.calculateFare (1/2) ≤ P004.calculateFare 4 :=
  c9_calculateFare_monotone (1/2) 4 (by norm_num)

/-! ## Claim C4: impassable edges and non-negative weights -/

/-- Auxiliary for C4: every entry of the `DEFAULT_SPEEDS` table is
positive. -/
theorem DEFAULT_SPEEDS_pos (rt : String) (v : ℚ) (h : P004.DEFAULT_SPEEDS rt = some v) :
    0 < v := by
  unfold P004.DEFAULT_SPEEDS at h
  split at h <;> simp_all <;> norm_num [← h]

/-- Auxiliary for C4: the class-default fallback speed is always
positive. -/
theorem defaultSpeed_pos (hw : Option String) : 0 < P004.defaultSpeed hw := by
  unfold P004.defaultSpeed
  cases hk : P004.DEFAULT_SPEEDS (match hw with
      | none => "unclassified"
      | some s => if s = "" then "unclassified" else s) with
  | none => simp [hk, P004.AVERAGE_SPEED_KMH]
  | some v =>
    have hv := DEFAULT_SPEEDS_pos _ v hk
    simp only [hk]
    split
    · norm_num [P004.AVERAGE_SPEED_KMH]
    · exact hv

/-- C4: (i) a zero-or-negative effective speed makes the edge weight
`Infinity` (`none`); (ii) a finite weight arises only with a strictly
positive effective speed as the divisor, so the division is never by
zero, and the weight equals `distance / effectiveSpeed`; (iii) finite
weights computed from a non-negative distance are non-negative; (iv) the
speed limit produced by `getSpeedLimit` is always positive (so the build
in fact never takes the `Infinity` branch). -/
theorem c4_edge_weight_safety (sp d : ℚ) :
    (sp * 1000 / 3600 ≤ 0 → P004.computeEdgeWeight sp d = none) ∧
    (∀ w, P004.computeEdgeWeight sp d = some w →
      0 < sp * 1000 / 3600 ∧ w = d / (sp * 1000 / 3600)) ∧
    (0 ≤ d → ∀ w, P004.computeEdgeWeight sp d = some w → 0 ≤ w) ∧
    (∀ ms hw, 0 < P004.getSpeedLimit ms hw) := by
  refine ⟨fun h => ?_, fun w hw => ?_, fun hd w hw => ?_, fun ms hw => ?_⟩
  · simp [P004.computeEdgeWeight, not_lt.mpr h]
  · unfold P004.computeEdgeWeight at hw
    by_cases hsp : 0 < sp * 1000 / 3600
    · simp [hsp] at hw
      exact ⟨hsp, hw.symm⟩
    · simp [hsp] at hw
  · unfold P004.computeEdgeWeight at hw
    by_cases hsp : 0 < sp * 1000 / 3600
    · simp [hsp] at hw
      rw [← hw]
      positivity
    · simp [hsp] at hw
  · unfold P004.getSpeedLimit
    split
    · rename_i n
      split
      · rename_i hn
        exact_mod_cast hn
      · exact defaultSpeed_pos hw
    · exact defaultSpeed_pos hw

/-- Witness for C4 at speed -5 km/h and distance 100 m. -/
theorem c4_edge_weight_safety_witness :
    P004.computeEdgeWeight (-5) 100 = none ∧
    (∀ w, P004.computeEdgeWeight 60 100 = some w → 0 ≤ w) := by
  refine ⟨(c4_edge_weight_safety (-5) 100).1 (by norm_num), ?_⟩
  exact (c4_edge_weight_safety 60 100).2.2.1 (by norm_num)



/-! ## Claim C8: idempotence of `addNode` -/

/-- Counterexample to C8 as stated: the pathfinding.ts variant of
`addNode` (one of the two implementations the claim covers) is *not*
idempotent — re-adding id "a", which already exists with a non-empty
neighbour map and a different point, overwrites the node, clearing its
neighbour map. -/
theorem c8_addNode_cex :
    PW.addNode [("a", ⟨⟨1, 2⟩, [("b", 7)]⟩)] "a" ⟨3, 4⟩ ≠
      [("a", ⟨⟨1, 2⟩, [("b", 7)]⟩)] := by
  decide

/-- C8 (amended): the main `PathFinder.addNode` (part_004) is idempotent —
calling it with an id already in the graph leaves the graph entirely
unchanged, preserving the existing node's point and neighbour map.  (The
pathfinding.ts variant instead unconditionally overwrites the node,
resetting its point and clearing its neighbours.) -/
theorem c8_addNode_idempotent (g : P004.Graph) (id : String) (p : Point)
    (h : (P004.lookupNode g id).isSome) :
    P004.addNode g id p = g := by
  simp [P004.addNode, h]

/-- Witness for C8 on a concrete one-node graph. -/
theorem c8_addNode_idempotent_witness :
    P004.addNode [("a", ⟨⟨1, 2⟩, [("b", some 7)]⟩)] "a" ⟨3, 4⟩ =
      [("a", ⟨⟨1, 2⟩, [("b", some 7)]⟩)] :=
  c8_addNode_idempotent _ "a" ⟨3, 4⟩ (by decide)

/-! ## Claim C6: one-way inference and edge directions -/

/-- Auxiliary for C6: with the one-way flag set, the way loop issues
exactly the forward directed edges of the way's valid consecutive
pairs. -/
theorem edgeCalls_true_eq (d : Point → Point → ℚ) (osm : List (String × Point))
    (g : P004.Graph) (sp : ℚ) (ns : List String) :
    P004.edgeCalls d osm g sp true ns = P004.specForwardEdges d osm g sp ns := by
  induction ns with
  | nil => rfl
  | cons a tl ih =>
    cases tl with
    | nil => rfl
    | cons b rest =>
      simp only [P004.edgeCalls, P004.specForwardEdges]
      rw [ih]
      congr 1

/-- Auxiliary for C6: with the one-way flag clear, the way loop issues,
for each valid consecutive pair, the forward edge immediately followed by
the reverse edge with the identical weight. -/
theorem edgeCalls_false_eq (d : Point → Point → ℚ) (osm : List (String × Point))
    (g : P004.Graph) (sp : ℚ) (ns : List String) :
    P004.edgeCalls d osm g sp false ns =
      (P004.specForwardEdges d osm g sp ns).flatMap (fun e => [e, (e.2.1, e.1, e.2.2)]) := by
  induction ns with
  | nil => rfl
  | cons a tl ih =>
    cases tl with
    | nil => rfl
    | cons b rest =>
      simp only [P004.edgeCalls, P004.specForwardEdges, List.flatMap_append]
      rw [ih]
      congr 1
      cases osm.lookup a <;> cases osm.lookup b <;>
        cases P004.lookupNode g (P004.osmId a) <;>
        cases P004.lookupNode g (P004.osmId b) <;> simp

/-- C6 (amended): in the part_004 builder, a way is treated as one-way
iff it is explicitly tagged `oneway = "yes"`, or its road class is
motorway-like, or it is tagged as a roundabout; for exactly these ways
the loop adds only the forward directed edges, and for all other ways it
adds each edge in both directions with equal weight.  (The dijkstra.ts
builder tests only the `oneway` tag: see the counterexample.) -/
theorem c6_oneway_inference (tags : P004.WayTags) (rt : String)
    (d : Point → Point → ℚ) (osm : List (String × Point)) (g : P004.Graph)
    (sp : ℚ) (ns : List String) :
    (P004.isOneWayStreet tags rt = true ↔ P004.specOneWay tags rt) ∧
    (P004.isOneWayStreet tags rt = true →
      P004.edgeCalls d osm g sp (P004.isOneWayStreet tags rt) ns =
        P004.specForwardEdges d osm g sp ns) ∧
    (P004.isOneWayStreet tags rt = false →
      P004.edgeCalls d osm g sp (P004.isOneWayStreet tags rt) ns =
        (P004.specForwardEdges d osm g sp ns).flatMap (fun e => [e, (e.2.1, e.1, e.2.2)])) := by
  refine ⟨?_, fun h => ?_, fun h => ?_⟩
  · simp [P004.isOneWayStreet, P004.specOneWay, P004.MOTORWAY, List.contains]
    tauto
  · rw [h]; exact edgeCalls_true_eq d osm g sp ns
  · rw [h]; exact edgeCalls_false_eq d osm g sp ns

/-- Witness for C6 on a concrete roundabout way with two nodes. -/
theorem c6_oneway_inference_witness :
    P004.isOneWayStreet ⟨none, some "roundabout"⟩ "residential" = true ∧
    P004.edgeCalls (fun _ _ => 10) [("1", ⟨0, 0⟩), ("2", ⟨0, 1⟩)]
        [("osm_1", ⟨⟨0, 0⟩, []⟩), ("osm_2", ⟨⟨0, 1⟩, []⟩)] 30
        (P004.isOneWayStreet ⟨none, some "roundabout"⟩ "residential") ["1", "2"] =
      P004.specForwardEdges (fun _ _ => 10) [("1", ⟨0, 0⟩), ("2", ⟨0, 1⟩)]
        [("osm_1", ⟨⟨0, 0⟩, []⟩), ("osm_2", ⟨⟨0, 1⟩, []⟩)] 30 ["1", "2"] := by
  refine ⟨by decide, ?_⟩
  exact (c6_oneway_inference ⟨none, some "roundabout"⟩ "residential" (fun _ _ => 10)
    [("1", ⟨0, 0⟩), ("2", ⟨0, 1⟩)]
    [("osm_1", ⟨⟨0, 0⟩, []⟩), ("osm_2", ⟨⟨0, 1⟩, []⟩)] 30 ["1", "2"]).2.1 (by decide)

/-! ## Claim C1: behaviour of `findShortestPath` (pathfinding.ts) -/

/-- Association-list lookup succeeds on any key present in the list. -/
theorem lookup_isSome_of_mem {β : Type} (l : List (String × β)) (a : String) (b : β)
    (h : (a, b) ∈ l) : (l.lookup a).isSome := by
  induction l with
  | nil => simp at h
  | cons x xs ih =>
    cases x with
    | mk x1 x2 =>
      rcases List.mem_cons.mp h with h1 | h1
      · rw [Prod.mk.injEq] at h1
        simp [List.lookup, h1.1]
      · by_cases hx : a == x1
        · simp [List.lookup, hx]
        · simp only [List.lookup]
          rw [Bool.not_eq_true] at hx
          simp [hx, ih h1]

/-- The minimum scan returns either a member of the scanned list holding
a finite distance, or its running best unchanged. -/
theorem scanMin_some (dist : String → Option ℚ) :
    ∀ (l : List String) (best res), PW.scanMin dist l best = some res →
      (res.1 ∈ l ∧ dist res.1 = some res.2) ∨ best = some res := by
  intro l
  induction l with
  | nil =>
    intro best res h
    simp [PW.scanMin] at h
    exact Or.inr (by rw [h])
  | cons id rest ih =>
    intro best res h
    simp only [PW.scanMin] at h
    rcases ih _ res h with h1 | h1
    · exact Or.inl ⟨List.mem_cons_of_mem _ h1.1, h1.2⟩
    · cases hd : dist id with
      | none =>
        rw [hd] at h1
        exact Or.inr h1
      | some dv =>
        rw [hd] at h1
        cases best with
        | none =>
          simp at h1
          refine Or.inl ?_
          rw [← h1]
          exact ⟨List.mem_cons_self _ _, hd⟩
        | some b =>
          by_cases hlt : dv < b.2
          · simp [hlt] at h1
            refine Or.inl ?_
            rw [← h1]
            exact ⟨List.mem_cons_self _ _, hd⟩
          · simp [hlt] at h1
            exact Or.inr (by rw [h1])

/-- One relaxation step cannot make an unreachable node's distance
finite: a finite distance after `relaxStep` comes from a finite distance
before, or from relaxing an edge out of a node that already had a finite
distance. -/
theorem relaxStep_inv (g : PW.Graph) (start curId : String) (visited : List String)
    (dp : (String → Option ℚ) × (String → Option String)) (e : String × ℚ)
    (hInv : ∀ v q, dp.1 v = some q → PW.Reach g start v)
    (hEdge : PW.hasEdge g curId e.1 = true) :
    ∀ v q, (PW.relaxStep g curId visited dp e).1 v = some q → PW.Reach g start v := by
  intro v q hv
  unfold PW.relaxStep at hv
  split at hv
  · exact hInv v q hv
  · split at hv
    · split at hv
      · simp only at hv
        by_cases hveq : v = e.1
        · subst hveq
          rw [if_pos rfl] at hv
          cases hc : dp.1 curId with
          | none => rw [hc] at hv; simp [PW.optAdd] at hv
          | some dc => exact Relation.ReflTransGen.tail (hInv curId dc hc) hEdge
        · rw [if_neg hveq] at hv
          exact hInv v q hv
      · exact hInv v q hv
    · exact hInv v q hv

/-- Folding `relaxStep` over edges out of `curId` preserves the
reachability invariant on the distance table. -/
theorem foldl_relaxStep_inv (g : PW.Graph) (start curId : String) (visited : List String) :
    ∀ (l : List (String × ℚ)) (dp : (String → Option ℚ) × (String → Option String)),
      (∀ v q, dp.1 v = some q → PW.Reach g start v) →
      (∀ e ∈ l, PW.hasEdge g curId e.1 = true) →
      ∀ v q, (l.foldl (PW.relaxStep g curId visited) dp).1 v = some q →
        PW.Reach g start v := by
  intro l
  induction l with
  | nil =>
    intro dp hInv _
    simpa using hInv
  | cons e rest ih =>
    intro dp hInv hAll
    simp only [List.foldl_cons]
    exact ih _ (relaxStep_inv g start curId visited dp e hInv
        (hAll e (List.mem_cons_self _ _)))
      (fun e2 he2 => hAll e2 (List.mem_cons_of_mem _ he2))

/-- `relaxAll` preserves the reachability invariant. -/
theorem relaxAll_inv (g : PW.Graph) (start curId : String) (visited : List String)
    (dist : String → Option ℚ) (prev : String → Option String)
    (hInv : ∀ v q, dist v = some q → PW.Reach g start v) :
    ∀ v q, (PW.relaxAll g curId visited dist prev).1 v = some q → PW.Reach g start v := by
  unfold PW.relaxAll
  cases hn : PW.lookupNode g curId with
  | none => exact hInv
  | some n =>
    refine foldl_relaxStep_inv g start curId visited n.neighbors (dist, prev) hInv ?_
    intro e he
    unfold PW.hasEdge
    rw [hn]
    obtain ⟨a, b⟩ := e
    exact lookup_isSome_of_mem _ _ _ he

/-- The Dijkstra main loop preserves the reachability invariant: at every
exit with state `s2`, a node holding a finite distance is reachable from
the start node. -/
theorem dijkstraLoop_inv (g : PW.Graph) (endId start : String) :
    ∀ (fuel : Nat) (s s2 : PW.DState), PW.dijkstraLoop g endId fuel s = some s2 →
      (∀ v q, s.dist v = some q → PW.Reach g start v) →
      ∀ v q, s2.dist v = some q → PW.Reach g start v := by
  intro fuel
  induction fuel with
  | zero =>
    intro s s2 h
    simp [PW.dijkstraLoop] at h
  | succ n ih =>
    intro s s2 h hInv
    simp only [PW.dijkstraLoop] at h
    split at h
    · cases h
      exact hInv
    · split at h
      · simp at h
      · split at h
        · cases h
          exact hInv
        · exact ih _ _ h (relaxAll_inv g start _ _ s.dist s.prev hInv)

/-- Path reconstruction returns a list headed by the start node and ended
by the node (or accumulator tail) it was started from. -/
theorem reconstructPath_head_last (prev : String → Option String) (start : String) :
    ∀ (fuel : Nat) (cur : String) (acc p : List String),
      PW.reconstructPath prev start fuel cur acc = some p →
      p.head? = some start ∧ p.getLast? = (cur :: acc).getLast? := by
  intro fuel
  induction fuel with
  | zero =>
    intro cur acc p h
    simp [PW.reconstructPath] at h
  | succ n ih =>
    intro cur acc p h
    simp only [PW.reconstructPath] at h
    split at h
    · rename_i hcur
      cases h
      exact ⟨rfl, by rw [hcur]⟩
    · split at h
      · simp at h
      · rename_i p2 hp2
        have h2 := ih p2 (cur :: acc) p h
        exact ⟨h2.1, by rw [h2.2]; exact List.getLast?_cons_cons⟩

/-- Every successful run of `findShortestPath` yields a path from the
start node to the end node, a finite distance, and implies the end node
is reachable from the start node. -/
theorem findShortestPath_some_spec (isInit : Bool) (g : PW.Graph) (startId endId : String)
    (r : PW.PathResult) (h : PW.findShortestPath isInit g startId endId = some r) :
    r.path.head? = some startId ∧ r.path.getLast? = some endId ∧
      r.distance.isSome ∧ PW.Reach g startId endId := by
  unfold PW.findShortestPath at h
  split at h
  · simp at h
  · split at h
    · simp at h
    · rename_i s hL
      split at h
      · simp at h
      · rename_i hFin
        split at h
        · simp at h
        · rename_i path hR
          split at h
          · simp at h
          · split at h
            · rename_i hValid
              cases h
              have hrec := reconstructPath_head_last s.prev startId (g.length + 1) endId [] path hR
              have hInv0 : ∀ v q,
                  (fun x => if x = startId then some (0 : ℚ) else none) v = some q →
                    PW.Reach g startId v := by
                intro v q hv
                by_cases hveq : v = startId
                · subst hveq
                  exact Relation.ReflTransGen.refl
                · simp [hveq] at hv
              have hInvEnd := dijkstraLoop_inv g endId startId (g.length + 1) _ s hL hInv0
              have hSome : (s.dist endId).isSome := by
                cases hss : s.dist endId with
                | none => rw [hss] at hFin; simp at hFin
                | some q => simp
              refine ⟨hrec.1, by simpa using hrec.2, hSome, ?_⟩
              rcases Option.isSome_iff_exists.mp hSome with ⟨q, hq⟩
              exact hInvEnd endId q hq
            · simp at h

/-- C1 (amended): in the pathfinding.ts `PathFinder`, for every graph
and node pair, `findShortestPath` returns no result when the destination
is unreachable from the source, and every successful result's path
starts at the source, ends at the destination, and carries a finite
distance.  (The dijkstra.ts helper variant violates this: see the
counterexample.) -/
theorem c1_findShortestPath_spec (isInit : Bool) (g : PW.Graph) (startId endId : String) :
    (¬ PW.Reach g startId endId → PW.findShortestPath isInit g startId endId = none) ∧
    (∀ r, PW.findShortestPath isInit g startId endId = some r →
      r.path.head? = some startId ∧ r.path.getLast? = some endId ∧ r.distance.isSome) := by
  constructor
  · intro hnr
    cases hr : PW.findShortestPath isInit g startId endId with
    | none => rfl
    | some r =>
      exact absurd (findShortestPath_some_spec isInit g startId endId r hr).2.2.2 hnr
  · intro r hr
    have h := findShortestPath_some_spec isInit g startId endId r hr
    exact ⟨h.1, h.2.1, h.2.2.1⟩

/-- Witness for C1: on a concrete two-node graph with no edges, the
destination is unreachable and `findShortestPath` returns no result. -/
theorem c1_findShortestPath_spec_witness :
    PW.findShortestPath true [("a", ⟨⟨0, 0⟩, []⟩), ("b", ⟨⟨0, 1⟩, []⟩)] "a" "b" = none := by
  apply (c1_findShortestPath_spec true [("a", ⟨⟨0, 0⟩, []⟩), ("b", ⟨⟨0, 1⟩, []⟩)] "a" "b").1
  intro h
  rcases Relation.ReflTransGen.cases_head h with h1 | ⟨c, hac, _⟩
  · exact absurd h1 (by decide)
  · simp [PW.hasEdge, PW.lookupNode, List.lookup] at hac

/-! ## Claim C3: the connectivity pass -/

/-- A successful association-list lookup locates a member pair. -/
theorem alist_lookup_mem {β : Type} (l : List (String × β)) (a : String) (b : β)
    (h : l.lookup a = some b) : (a, b) ∈ l := by
  induction l with
  | nil => simp [List.lookup] at h
  | cons x xs ih =>
    cases x with
    | mk x1 x2 =>
      by_cases hx : a == x1
      · simp [List.lookup, hx] at h
        rw [beq_iff_eq] at hx
        simp [hx, h]
      · rw [Bool.not_eq_true] at hx
        simp only [List.lookup, hx] at h
        exact List.mem_cons_of_mem _ (ih h)

/-- With duplicate-free keys (a JavaScript-object invariant), membership
determines the lookup result. -/
theorem alist_lookup_of_mem_nodup {β : Type} (l : List (String × β))
    (hnd : (l.map Prod.fst).Nodup) (a : String) (b : β) (h : (a, b) ∈ l) :
    l.lookup a = some b := by
  induction l with
  | nil => simp at h
  | cons x xs ih =>
    cases x with
    | mk x1 x2 =>
      simp only [List.map_cons, List.nodup_cons] at hnd
      rcases List.mem_cons.mp h with h1 | h1
      · rw [Prod.mk.injEq] at h1
        simp [List.lookup, h1.1, h1.2]
      · have hne : ¬(a == x1) := by
          intro hcon
          rw [beq_iff_eq] at hcon
          subst hcon
          exact hnd.1 (List.mem_map.mpr ⟨(a, b), h1, rfl⟩)
        rw [Bool.not_eq_true] at hne
        simp only [List.lookup, hne]
        exact ih hnd.2 h1

/-- Filtering out another key does not change a lookup. -/
theorem alist_lookup_filter_ne {β : Type} (l : List (String × β)) (i v : String)
    (h : v ≠ i) : (l.filter (fun e => e.1 != i)).lookup v = l.lookup v := by
  induction l with
  | nil => simp
  | cons x xs ih =>
    cases x with
    | mk x1 x2 =>
      by_cases hxi : x1 = i
      · subst hxi
        have : ¬(v == x1) := by simpa using h
        rw [Bool.not_eq_true] at this
        simp [List.filter, List.lookup, this, ih]
      · have : (x1 != i) = true := by simpa using hxi
        by_cases hvx : v == x1
        · simp [List.filter, this, List.lookup, hvx]
        · rw [Bool.not_eq_true] at hvx
          simp [List.filter, this, List.lookup, hvx, ih]

/-- Lookup through the delete-and-scrub step of the isolated-node loop:
for a key other than the deleted one, the lookup returns the original
node transformed by the per-node scrub. -/
theorem alist_lookup_delete_map {β γ : Type} (l : List (String × β)) (i u : String)
    (f : β → γ) (h : u ≠ i) :
    (((l.filter (fun e => e.1 != i)).map (fun e => (e.1, f e.2))).lookup u) =
      (l.lookup u).map f := by
  induction l with
  | nil => simp
  | cons x xs ih =>
    cases x with
    | mk x1 x2 =>
      by_cases hxi : x1 = i
      · subst hxi
        have : ¬(u == x1) := by simpa using h
        rw [Bool.not_eq_true] at this
        simp [List.filter, List.lookup, this, ih]
      · have hfi : (x1 != i) = true := by simpa using hxi
        by_cases hux : u == x1
        · simp [List.filter, hfi, List.lookup, hux]
        · rw [Bool.not_eq_true] at hux
          simp [List.filter, hfi, List.lookup, hux, ih]

/-- `enqueueNbrs` only grows the visited set. -/
theorem enqueueNbrs_vis_sub (nbrs : List (String × Option ℚ)) :
    ∀ (q vis : List String) (x : String), x ∈ vis →
      x ∈ (P004.enqueueNbrs nbrs (q, vis)).2 := by
  induction nbrs with
  | nil => intro q vis x hx; simpa [P004.enqueueNbrs] using hx
  | cons e rest ih =>
    intro q vis x hx
    simp only [P004.enqueueNbrs, List.foldl_cons] at *
    by_cases hv : e.1 ∈ vis
    · simp only [hv, if_pos]
      exact ih q vis x hx
    · simp only [hv, if_neg, not_false_iff]
      exact ih _ _ x (List.mem_cons_of_mem _ hx)

/-- After `enqueueNbrs`, every neighbour key is visited. -/
theorem enqueueNbrs_nbrs_sub (nbrs : List (String × Option ℚ)) :
    ∀ (q vis : List String) (e : String × Option ℚ), e ∈ nbrs →
      e.1 ∈ (P004.enqueueNbrs nbrs (q, vis)).2 := by
  induction nbrs with
  | nil => intro q vis e he; simp at he
  | cons e0 rest ih =>
    intro q vis e he
    simp only [P004.enqueueNbrs, List.foldl_cons] at *
    rcases List.mem_cons.mp he with h1 | h1
    · subst h1
      by_cases hv : e.1 ∈ vis
      · simp only [hv, if_pos]
        exact enqueueNbrs_vis_sub rest q vis e.1 hv
      · simp only [hv, if_neg, not_false_iff]
        exact enqueueNbrs_vis_sub rest _ _ e.1 (List.mem_cons_self _ _)
    · by_cases hv : e0.1 ∈ vis
      · simp only [hv, if_pos]
        exact ih q vis e h1
      · simp only [hv, if_neg, not_false_iff]
        exact ih _ _ e h1

/-- `enqueueNbrs` only appends to the queue. -/
theorem enqueueNbrs_q_sub (nbrs : List (String × Option ℚ)) :
    ∀ (q vis : List String) (x : String), x ∈ q →
      x ∈ (P004.enqueueNbrs nbrs (q, vis)).1 := by
  induction nbrs with
  | nil => intro q vis x hx; simpa [P004.enqueueNbrs] using hx
  | cons e rest ih =>
    intro q vis x hx
    simp only [P004.enqueueNbrs, List.foldl_cons] at *
    by_cases hv : e.1 ∈ vis
    · simp only [hv, if_pos]
      exact ih q vis x hx
    · simp only [hv, if_neg, not_false_iff]
      exact ih _ _ x (List.mem_append_left _ hx)

/-- The visited set after `enqueueNbrs` contains only old entries and
neighbour keys. -/
theorem enqueueNbrs_vis_new (nbrs : List (String × Option ℚ)) :
    ∀ (q vis : List String) (x : String), x ∈ (P004.enqueueNbrs nbrs (q, vis)).2 →
      x ∈ vis ∨ ∃ e ∈ nbrs, e.1 = x := by
  induction nbrs with
  | nil => intro q vis x hx; exact Or.inl (by simpa [P004.enqueueNbrs] using hx)
  | cons e rest ih =>
    intro q vis x hx
    simp only [P004.enqueueNbrs, List.foldl_cons] at *
    by_cases hv : e.1 ∈ vis
    · rw [if_pos hv] at hx
      rcases ih q vis x hx with h1 | ⟨e2, he2, hx2⟩
      · exact Or.inl h1
      · exact Or.inr ⟨e2, List.mem_cons_of_mem _ he2, hx2⟩
    · rw [if_neg hv] at hx
      rcases ih _ _ x hx with h1 | ⟨e2, he2, hx2⟩
      · rcases List.mem_cons.mp h1 with h2 | h2
        · exact Or.inr ⟨e, List.mem_cons_self _ _, h2.symm⟩
        · exact Or.inl h2
      · exact Or.inr ⟨e2, List.mem_cons_of_mem _ he2, hx2⟩

/-- A fresh visit (not in the baseline visited set `vis0`) is always in
the queue after `enqueueNbrs`, provided that was true before. -/
theorem enqueueNbrs_fresh_in_q (nbrs : List (String × Option ℚ)) (vis0 : List String) :
    ∀ (q vis : List String),
      (∀ v ∈ vis, v ∉ vis0 → v ∈ q) →
      ∀ v ∈ (P004.enqueueNbrs nbrs (q, vis)).2, v ∉ vis0 →
        v ∈ (P004.enqueueNbrs nbrs (q, vis)).1 := by
  induction nbrs with
  | nil =>
    intro q vis hqv v hv hv0
    simp only [P004.enqueueNbrs, List.foldl_nil] at *
    exact hqv v hv hv0
  | cons e rest ih =>
    intro q vis hqv v hv hv0
    simp only [P004.enqueueNbrs, List.foldl_cons] at *
    by_cases hev : e.1 ∈ vis
    · rw [if_pos hev] at hv ⊢
      exact ih q vis hqv v hv hv0
    · rw [if_neg hev] at hv ⊢
      refine ih _ _ ?_ v hv hv0
      intro u hu hu0
      rcases List.mem_cons.mp hu with h1 | h1
      · subst h1
        exact List.mem_append_right _ (List.mem_cons_self _ _)
      · exact List.mem_append_left _ (hqv u h1 hu0)

/-- The queue stays inside the visited set across `enqueueNbrs`. -/
theorem enqueueNbrs_qsubvis (nbrs : List (String × Option ℚ)) :
    ∀ (q vis : List String),
      (∀ x ∈ q, x ∈ vis) →
      ∀ x ∈ (P004.enqueueNbrs nbrs (q, vis)).1, x ∈ (P004.enqueueNbrs nbrs (q, vis)).2 := by
  induction nbrs with
  | nil =>
    intro q vis hqv x hx
    simp only [P004.enqueueNbrs, List.foldl_nil] at *
    exact hqv x hx
  | cons e rest ih =>
    intro q vis hqv x hx
    simp only [P004.enqueueNbrs, List.foldl_cons] at *
    by_cases hev : e.1 ∈ vis
    · rw [if_pos hev] at hx ⊢
      exact ih q vis hqv x hx
    · rw [if_neg hev] at hx ⊢
      refine ih _ _ ?_ x hx
      intro u hu
      rcases List.mem_append.mp hu with h1 | h1
      · exact List.mem_cons_of_mem _ (hqv u h1)
      · simp at h1
        simp [h1]

/-- The length-plus-missing measure does not grow across `enqueueNbrs`
when every neighbour key occurs in the graph's global key list. -/
theorem enqueueNbrs_measure (K : Finset String) (nbrs : List (String × Option ℚ))
    (hk : ∀ e ∈ nbrs, e.1 ∈ K) :
    ∀ (q vis : List String),
      (P004.enqueueNbrs nbrs (q, vis)).1.length
          + (K \ (P004.enqueueNbrs nbrs (q, vis)).2.toFinset).card
        ≤ q.length + (K \ vis.toFinset).card := by
  induction nbrs with
  | nil => intro q vis; simp [P004.enqueueNbrs]
  | cons e rest ih =>
    intro q vis
    simp only [P004.enqueueNbrs, List.foldl_cons] at *
    by_cases hev : e.1 ∈ vis
    · rw [if_pos hev]
      exact ih (fun x hx => hk x (List.mem_cons_of_mem _ hx)) q vis
    · rw [if_neg hev]
      have step := ih (fun x hx => hk x (List.mem_cons_of_mem _ hx)) (q ++ [e.1]) (e.1 :: vis)
      refine step.trans ?_
      have hKe : e.1 ∈ K := hk e (List.mem_cons_self _ _)
      have hmem : e.1 ∈ K \ vis.toFinset := by
        rw [Finset.mem_sdiff]
        exact ⟨hKe, by simpa using hev⟩
      have hsub : K \ (e.1 :: vis).toFinset ⊆ K \ vis.toFinset := by
        intro x hx
        rw [Finset.mem_sdiff] at hx ⊢
        refine ⟨hx.1, fun hcon => hx.2 ?_⟩
        simp only [List.toFinset_cons, Finset.mem_insert]
        exact Or.inr hcon
      have hnot : e.1 ∉ K \ (e.1 :: vis).toFinset := by
        rw [Finset.mem_sdiff]
        intro hcon
        exact hcon.2 (by simp)
      have hlt : (K \ (e.1 :: vis).toFinset).card < (K \ vis.toFinset).card :=
        Finset.card_lt_card ⟨hsub, fun hcon => hnot (hcon hmem)⟩
      simp only [List.length_append, List.length_cons, List.length_nil]
      omega

/-- The BFS never un-visits: the initial visited set is contained in the
result. -/
theorem bfsAux_vis_mono (g : P004.Graph) :
    ∀ (fuel : Nat) (q vis : List String) (x : String), x ∈ vis →
      x ∈ P004.bfsAux g fuel q vis := by
  intro fuel
  induction fuel with
  | zero => intro q vis x hx; simpa [P004.bfsAux] using hx
  | succ n ih =>
    intro q vis x hx
    cases q with
    | nil => simpa [P004.bfsAux] using hx
    | cons c rest =>
      simp only [P004.bfsAux]
      cases hc : P004.lookupNode g c with
      | none => exact ih rest vis x hx
      | some nd => exact ih _ _ x (enqueueNbrs_vis_sub nd.neighbors rest vis x hx)

/-- BFS closure: starting from a queue contained in the visited set, with
enough fuel (the length-plus-missing measure) and every visited node
either pending in the queue or with all its neighbour keys visited, the
final visited set is closed under the neighbour relation. -/
theorem bfsAux_closed (g : P004.Graph) :
    ∀ (fuel : Nat) (q vis : List String),
      q.length + ((P004.allNbrKeys g).toFinset \ vis.toFinset).card ≤ fuel →
      (∀ x ∈ q, x ∈ vis) →
      (∀ v ∈ vis, v ∈ q ∨
        ∀ n, P004.lookupNode g v = some n → ∀ e ∈ n.neighbors, e.1 ∈ vis) →
      ∀ v ∈ P004.bfsAux g fuel q vis,
        ∀ n, P004.lookupNode g v = some n → ∀ e ∈ n.neighbors,
          e.1 ∈ P004.bfsAux g fuel q vis := by
  intro fuel
  induction fuel with
  | zero =>
    intro q vis hM hqv hinv v hv n hn e he
    have hq : q = [] := by
      cases q with
      | nil => rfl
      | cons a b => simp at hM
    subst hq
    simp only [P004.bfsAux] at hv ⊢
    rcases hinv v hv with h1 | h1
    · simp at h1
    · exact h1 n hn e he
  | succ fl ih =>
    intro q vis hM hqv hinv
    cases q with
    | nil =>
      intro v hv n hn e he
      simp only [P004.bfsAux] at hv ⊢
      rcases hinv v hv with h1 | h1
      · simp at h1
      · exact h1 n hn e he
    | cons c rest =>
      simp only [P004.bfsAux]
      cases hc : P004.lookupNode g c with
      | none =>
        refine ih rest vis ?_ ?_ ?_
        · simp only [List.length_cons] at hM
          omega
        · exact fun x hx => hqv x (List.mem_cons_of_mem _ hx)
        · intro v hv
          rcases hinv v hv with h1 | h1
          · rcases List.mem_cons.mp h1 with h2 | h2
            · subst h2
              refine Or.inr ?_
              intro n hn
              rw [hc] at hn
              exact absurd hn (by simp)
            · exact Or.inl h2
          · exact Or.inr h1
      | some nd =>
        have hknd : ∀ e ∈ nd.neighbors, e.1 ∈ (P004.allNbrKeys g).toFinset := by
          intro e he
          rw [List.mem_toFinset]
          unfold P004.allNbrKeys
          rw [List.mem_flatMap]
          exact ⟨(c, nd), alist_lookup_mem g c nd hc, List.mem_map.mpr ⟨e, he, rfl⟩⟩
        have hmeas := enqueueNbrs_measure (P004.allNbrKeys g).toFinset nd.neighbors hknd rest vis
        cases hqv2 : P004.enqueueNbrs nd.neighbors (rest, vis) with
        | mk q2 vis2 =>
          rw [hqv2] at hmeas
          dsimp only at hmeas
          dsimp only
          rw [hqv2]
          dsimp only
          refine ih q2 vis2 ?_ ?_ ?_
          · simp only [List.length_cons] at hM
            omega
          · intro x hx
            have hstep := enqueueNbrs_qsubvis nd.neighbors rest vis
              (fun x2 hx2 => hqv x2 (List.mem_cons_of_mem _ hx2)) x
            rw [hqv2] at hstep
            exact hstep hx
          · intro v hv
            by_cases hvv : v ∈ vis
            · rcases hinv v hvv with h1 | h1
              · rcases List.mem_cons.mp h1 with h2 | h2
                · subst h2
                  refine Or.inr ?_
                  intro n hn e he
                  rw [hc] at hn
                  cases hn
                  have hstep := enqueueNbrs_nbrs_sub nd.neighbors rest vis e he
                  rw [hqv2] at hstep
                  exact hstep
                · refine Or.inl ?_
                  have hstep := enqueueNbrs_q_sub nd.neighbors rest vis v h2
                  rw [hqv2] at hstep
                  exact hstep
              · refine Or.inr ?_
                intro n hn e he
                have hstep := enqueueNbrs_vis_sub nd.neighbors rest vis e.1 (h1 n hn e he)
                rw [hqv2] at hstep
                exact hstep
            · refine Or.inl ?_
              have hstep := enqueueNbrs_fresh_in_q nd.neighbors vis rest vis
                (fun u hu hu2 => absurd hu hu2) v
              rw [hqv2] at hstep
              exact hstep hv hvv

/-- BFS in-edge provenance: every visited node other than those visited
at start is the target of an edge out of another visited node. -/
theorem bfsAux_inedge (g : P004.Graph) (start : String) :
    ∀ (fuel : Nat) (q vis : List String),
      (∀ x ∈ q, x ∈ vis) →
      (∀ v ∈ vis, v = start ∨ ∃ u, u ∈ vis ∧ P004.hasNbr g u v = true) →
      ∀ v ∈ P004.bfsAux g fuel q vis,
        v = start ∨ ∃ u, u ∈ P004.bfsAux g fuel q vis ∧ P004.hasNbr g u v = true := by
  intro fuel
  induction fuel with
  | zero =>
    intro q vis hqv hinv v hv
    simp only [P004.bfsAux] at hv ⊢
    rcases hinv v hv with h1 | ⟨u, hu, he⟩
    · exact Or.inl h1
    · exact Or.inr ⟨u, hu, he⟩
  | succ fl ih =>
    intro q vis hqv hinv
    cases q with
    | nil =>
      intro v hv
      simp only [P004.bfsAux] at hv ⊢
      exact hinv v hv
    | cons c rest =>
      simp only [P004.bfsAux]
      cases hc : P004.lookupNode g c with
      | none =>
        exact ih rest vis (fun x hx => hqv x (List.mem_cons_of_mem _ hx)) hinv
      | some nd =>
        cases hqv2 : P004.enqueueNbrs nd.neighbors (rest, vis) with
        | mk q2 vis2 =>
          dsimp only
          rw [hqv2]
          dsimp only
          refine ih q2 vis2 ?_ ?_
          · intro x hx
            have hstep := enqueueNbrs_qsubvis nd.neighbors rest vis
              (fun x2 hx2 => hqv x2 (List.mem_cons_of_mem _ hx2)) x
            rw [hqv2] at hstep
            exact hstep hx
          · intro v hv
            have hnew := enqueueNbrs_vis_new nd.neighbors rest vis v
            rw [hqv2] at hnew
            rcases hnew hv with hold | ⟨e2, he2, he2v⟩
            · rcases hinv v hold with h1 | ⟨u, hu, he⟩
              · exact Or.inl h1
              · refine Or.inr ⟨u, ?_, he⟩
                have hstep := enqueueNbrs_vis_sub nd.neighbors rest vis u hu
                rw [hqv2] at hstep
                exact hstep
            · refine Or.inr ⟨c, ?_, ?_⟩
              · have hcv : c ∈ vis := hqv c (List.mem_cons_self _ _)
                have hstep := enqueueNbrs_vis_sub nd.neighbors rest vis c hcv
                rw [hqv2] at hstep
                exact hstep
              · unfold P004.hasNbr
                rw [hc]
                subst he2v
                obtain ⟨a, b⟩ := e2
                exact lookup_isSome_of_mem _ _ _ he2

/-- Unfolding one step of the isolated-node removal loop. -/
theorem cleanupIsolated_cons (g : P004.Graph) (i : String) (rest : List String) :
    P004.cleanupIsolated g (i :: rest) =
      P004.cleanupIsolated ((P004.deleteNode g i).map
        (fun e => (e.1, P004.removeNbrRef e.2 i))) rest := rfl

/-- Every entry surviving the isolated-node cleanup stems from an entry
of the input graph with the same key and point, its id is none of the
removed ones, and its neighbour entries are a subset of the original
ones. -/
theorem cleanup_mem :
    ∀ (iso : List String) (g : P004.Graph) (p : String × P004.GNode),
      p ∈ P004.cleanupIsolated g iso →
      p.1 ∉ iso ∧ ∃ n0, (p.1, n0) ∈ g ∧ p.2.point = n0.point ∧
        ∀ e ∈ p.2.neighbors, e ∈ n0.neighbors := by
  intro iso
  induction iso with
  | nil =>
    intro g p hp
    simp only [P004.cleanupIsolated, List.foldl_nil] at hp
    exact ⟨List.not_mem_nil _, p.2, hp, rfl, fun e he => he⟩
  | cons i rest ih =>
    intro g p hp
    rw [cleanupIsolated_cons] at hp
    have step := ih ((P004.deleteNode g i).map (fun e => (e.1, P004.removeNbrRef e.2 i))) p hp
    rcases step with ⟨hrest, n1, hn1, hpt, hsub⟩
    rw [List.mem_map] at hn1
    rcases hn1 with ⟨e0, he0, heq⟩
    rw [Prod.mk.injEq] at heq
    have he0g : e0 ∈ g := List.mem_of_mem_filter he0
    have hne : p.1 ≠ i := by
      rw [← heq.1]
      have := List.of_mem_filter he0
      simpa using this
    refine ⟨?_, e0.2, ?_, ?_, ?_⟩
    · intro hcon
      rcases List.mem_cons.mp hcon with h1 | h1
      · exact hne h1
      · exact hrest h1
    · rw [← heq.1]
      exact he0g
    · rw [hpt, ← heq.2]
      unfold P004.removeNbrRef
      split <;> rfl
    · intro e he
      have he1 := hsub e he
      rw [← heq.2] at he1
      unfold P004.removeNbrRef at he1
      split at he1
      · exact List.mem_of_mem_filter he1
      · exact he1

/-- A removed id can no longer be looked up after the cleanup. -/
theorem cleanup_lookup_none (iso : List String) (g : P004.Graph) (id : String)
    (h : id ∈ iso) : P004.lookupNode (P004.cleanupIsolated g iso) id = none := by
  cases hl : P004.lookupNode (P004.cleanupIsolated g iso) id with
  | none => rfl
  | some m =>
    have hmem := alist_lookup_mem _ _ _ hl
    exact absurd h (cleanup_mem iso g (id, m) hmem).1

/-- An edge between two surviving nodes survives the cleanup: the scrub
only deletes neighbour entries keyed by removed ids. -/
theorem cleanup_edge_surv :
    ∀ (iso : List String) (g : P004.Graph) (u v : String),
      u ∉ iso → v ∉ iso → P004.hasNbr g u v = true →
      P004.hasNbr (P004.cleanupIsolated g iso) u v = true := by
  intro iso
  induction iso with
  | nil =>
    intro g u v _ _ h
    simpa [P004.cleanupIsolated] using h
  | cons i rest ih =>
    intro g u v hu hv h
    rw [cleanupIsolated_cons]
    have hui : u ≠ i := fun hcon => hu (hcon ▸ List.mem_cons_self _ _)
    have hvi : v ≠ i := fun hcon => hv (hcon ▸ List.mem_cons_self _ _)
    have hur : u ∉ rest := fun hcon => hu (List.mem_cons_of_mem _ hcon)
    have hvr : v ∉ rest := fun hcon => hv (List.mem_cons_of_mem _ hcon)
    refine ih _ u v hur hvr ?_
    unfold P004.hasNbr at h ⊢
    cases hlu : P004.lookupNode g u with
    | none => rw [hlu] at h; simp at h
    | some n =>
      rw [hlu] at h
      dsimp only at h
      have hstep : P004.lookupNode
          ((P004.deleteNode g i).map (fun e => (e.1, P004.removeNbrRef e.2 i))) u =
          some (P004.removeNbrRef n i) := by
        unfold P004.lookupNode P004.deleteNode
        rw [alist_lookup_delete_map g i u (fun x => P004.removeNbrRef x i) hui]
        unfold P004.lookupNode at hlu
        rw [hlu]
        rfl
      rw [hstep]
      dsimp only
      unfold P004.removeNbrRef
      split
      · dsimp only
        rw [alist_lookup_filter_ne n.neighbors i v hvi]
        exact h
      · exact h

/-- An id is isolated exactly when it is a key of the graph that the
traversal did not visit. -/
theorem mem_isolatedIds_iff (g : P004.Graph) (id : String) :
    id ∈ P004.isolatedIds g ↔ id ∈ g.map Prod.fst ∧ id ∉ P004.bfsVisited g := by
  unfold P004.isolatedIds
  rw [List.mem_filter]
  simp

/-- C3 (amended): after `validateGraphConnectivity` on a graph with
duplicate-free keys, (i) every node unreached by the traversal is deleted;
(ii) every surviving node was visited and all its neighbour entries point
at visited, surviving (non-deleted) ids — so all edges referencing deleted
nodes are gone; (iii) every surviving node other than the traversal's
start node (the graph's first node) has an incoming edge in the surviving
graph — an isolated node can remain only as the start node itself. -/
theorem c3_connectivity_pass (g : P004.Graph) (hnd : (g.map Prod.fst).Nodup) :
    (∀ id ∈ P004.isolatedIds g,
      P004.lookupNode (P004.validateGraphConnectivity g) id = none) ∧
    (∀ v m, P004.lookupNode (P004.validateGraphConnectivity g) v = some m →
      v ∈ P004.bfsVisited g ∧
      ∀ e ∈ m.neighbors, e.1 ∈ P004.bfsVisited g ∧ e.1 ∉ P004.isolatedIds g) ∧
    (∀ hd, g.head? = some hd →
      ∀ v m, P004.lookupNode (P004.validateGraphConnectivity g) v = some m → v ≠ hd.1 →
        ∃ u, P004.hasNbr (P004.validateGraphConnectivity g) u v = true) := by
  cases hh : g.head? with
  | none =>
    have hg : g = [] := by simpa using hh
    subst hg
    refine ⟨?_, ?_, ?_⟩
    · intro id hid
      simp [P004.isolatedIds] at hid
    · intro v m hl
      simp [P004.validateGraphConnectivity, P004.lookupNode, List.lookup] at hl
    · intro hd hhd
      simp at hhd
  | some hd =>
    have hvalid : P004.validateGraphConnectivity g =
        P004.cleanupIsolated g (P004.isolatedIds g) := by
      unfold P004.validateGraphConnectivity
      rw [hh]
    have hvis : P004.bfsVisited g = P004.bfsAux g (P004.bfsFuel g) [hd.1] [hd.1] := by
      unfold P004.bfsVisited
      rw [hh]
    have hq0 : ∀ x ∈ [hd.1], x ∈ [hd.1] := fun x hx => hx
    have hmeas0 : [hd.1].length +
        ((P004.allNbrKeys g).toFinset \ [hd.1].toFinset).card ≤ P004.bfsFuel g := by
      have h1 : ((P004.allNbrKeys g).toFinset \ [hd.1].toFinset).card ≤
          (P004.allNbrKeys g).toFinset.card :=
        Finset.card_le_card (Finset.sdiff_subset)
      have h2 : (P004.allNbrKeys g).toFinset.card ≤ (P004.allNbrKeys g).length :=
        List.toFinset_card_le _
      unfold P004.bfsFuel
      simp only [List.length_singleton]
      omega
    have hclosed := bfsAux_closed g (P004.bfsFuel g) [hd.1] [hd.1] hmeas0 hq0
      (fun v hv => Or.inl hv)
    have hinedge := bfsAux_inedge g hd.1 (P004.bfsFuel g) [hd.1] [hd.1] hq0
      (fun v hv => Or.inl (by simpa using hv))
    have hsurv : ∀ v m, P004.lookupNode (P004.validateGraphConnectivity g) v = some m →
        v ∈ P004.bfsVisited g ∧ v ∉ P004.isolatedIds g ∧
        ∃ n0, (v, n0) ∈ g ∧ ∀ e ∈ m.neighbors, e ∈ n0.neighbors := by
      intro v m hl
      rw [hvalid] at hl
      have hmem := alist_lookup_mem _ _ _ hl
      have hc := cleanup_mem (P004.isolatedIds g) g (v, m) hmem
      rcases hc with ⟨hviso, n0, hn0g, _, hsub⟩
      have hvkeys : v ∈ g.map Prod.fst := List.mem_map.mpr ⟨(v, n0), hn0g, rfl⟩
      have hvvis : v ∈ P004.bfsVisited g := by
        by_contra hnv
        exact hviso ((mem_isolatedIds_iff g v).mpr ⟨hvkeys, hnv⟩)
      exact ⟨hvvis, hviso, n0, hn0g, hsub⟩
    refine ⟨?_, ?_, ?_⟩
    · intro id hid
      rw [hvalid]
      exact cleanup_lookup_none _ g id hid
    · intro v m hl
      rcases hsurv v m hl with ⟨hvvis, _, n0, hn0g, hsub⟩
      refine ⟨hvvis, ?_⟩
      intro e he
      have hlk : P004.lookupNode g v = some n0 :=
        alist_lookup_of_mem_nodup g hnd v n0 hn0g
      have hevis : e.1 ∈ P004.bfsVisited g := by
        rw [hvis] at hvvis ⊢
        exact hclosed v hvvis n0 hlk e (hsub e he)
      refine ⟨hevis, ?_⟩
      intro hcon
      exact ((mem_isolatedIds_iff g e.1).mp hcon).2 hevis
    · intro hd2 hhd2 v m hl hne
      have heq := Option.some.inj hhd2
      subst heq
      rcases hsurv v m hl with ⟨hvvis, hviso, _, _, _⟩
      have hie := hinedge v (by rw [hvis] at hvvis; exact hvvis)
      rcases hie with h1 | ⟨u, hu, hedge⟩
      · exact absurd h1 hne
      · have huvis : u ∈ P004.bfsVisited g := by rw [hvis]; exact hu
        have huiso : u ∉ P004.isolatedIds g := fun hcon =>
          ((mem_isolatedIds_iff g u).mp hcon).2 huvis
        refine ⟨u, ?_⟩
        rw [hvalid]
        exact cleanup_edge_surv (P004.isolatedIds g) g u v huiso hviso hedge

/-- Witness for C3 (amended) on a concrete three-node graph whose node
"c" is unreached: after the pass, "c" is gone. -/
theorem c3_connectivity_pass_witness :
    P004.lookupNode (P004.validateGraphConnectivity
      [("a", ⟨⟨0, 0⟩, [("b", some 1)]⟩), ("b", ⟨⟨0, 1⟩, [("a", some 1)]⟩),
       ("c", ⟨⟨0, 2⟩, []⟩)]) "c" = none :=
  (c3_connectivity_pass
    [("a", ⟨⟨0, 0⟩, [("b", some 1)]⟩), ("b", ⟨⟨0, 1⟩, [("a", some 1)]⟩),
     ("c", ⟨⟨0, 2⟩, []⟩)] (by decide)).1 "c" (by decide)

/-- Counterexample to C3 as stated: on the graph with two isolated nodes
"a" and "b", the connectivity pass keeps the traversal's start node "a"
even though it has no edges at all — an isolated node remains after the
pass. -/
theorem c3_isolated_remains_cex :
    (P004.lookupNode (P004.validateGraphConnectivity
        [("a", ⟨⟨0, 0⟩, []⟩), ("b", ⟨⟨0, 1⟩, []⟩)]) "a").isSome = true ∧
    P004.isIsolatedNode (P004.validateGraphConnectivity
        [("a", ⟨⟨0, 0⟩, []⟩), ("b", ⟨⟨0, 1⟩, []⟩)]) "a" = true := by
  decide

/-! ## Claim C5: neighbour maps after a build -/

/-- A lookup succeeds exactly on the keys of the list. -/
theorem alist_lookup_isSome_iff {β : Type} (l : List (String × β)) (a : String) :
    (l.lookup a).isSome ↔ a ∈ l.map Prod.fst := by
  induction l with
  | nil => simp [List.lookup]
  | cons x xs ih =>
    cases x with
    | mk x1 x2 =>
      by_cases hx : a == x1
      · rw [beq_iff_eq] at hx
        simp [List.lookup, hx]
      · have hne : ¬a = x1 := by simpa using hx
        rw [Bool.not_eq_true] at hx
        simp [List.lookup, hx, ih, hne]

/-- `pushNbr` does not change the key list. -/
theorem pushNbr_keys (g : DJ.DGraph) (a b : String) :
    (DJ.pushNbr g a b).map Prod.fst = g.map Prod.fst := by
  unfold DJ.pushNbr
  rw [List.map_map]
  apply List.map_congr_left
  intro e _
  by_cases he : e.1 = a
  · simp [he]
  · simp [he]

/-- `addWayStep` does not change the key list. -/
theorem addWayStep_keys (ow : Bool) (g : DJ.DGraph) (pr : String × String) :
    (DJ.addWayStep ow g pr).map Prod.fst = g.map Prod.fst := by
  unfold DJ.addWayStep DJ.addBack DJ.addFwd
  repeat' split
  all_goals simp [pushNbr_keys]

/-- Neighbour entries after `pushNbr` are old entries or the pushed
id. -/
theorem pushNbr_nbrs (g : DJ.DGraph) (a b : String) (p : String × DJ.DNode)
    (hp : p ∈ DJ.pushNbr g a b) (x : String) (hx : x ∈ p.2.neighbors) :
    x = b ∨ ∃ q ∈ g, x ∈ q.2.neighbors := by
  unfold DJ.pushNbr at hp
  rw [List.mem_map] at hp
  rcases hp with ⟨e, he, heq⟩
  by_cases hea : e.1 = a
  · rw [if_pos hea] at heq
    subst heq
    simp only at hx
    rcases List.mem_append.mp hx with h1 | h1
    · exact Or.inr ⟨e, he, h1⟩
    · simp at h1
      exact Or.inl h1
  · rw [if_neg hea] at heq
    subst heq
    exact Or.inr ⟨e, he, hx⟩

/-- The self-closure invariant of the unfiltered build: every neighbour
id of every node is a key of the graph.  `addWayStep` preserves it. -/
theorem addWayStep_inv (ow : Bool) (pr : String × String) (g : DJ.DGraph)
    (h : ∀ p ∈ g, ∀ b ∈ p.2.neighbors, b ∈ g.map Prod.fst) :
    ∀ p ∈ DJ.addWayStep ow g pr, ∀ b ∈ p.2.neighbors,
      b ∈ (DJ.addWayStep ow g pr).map Prod.fst := by
  rw [addWayStep_keys]
  unfold DJ.addWayStep
  split
  · rename_i hguard
    rw [Bool.and_eq_true] at hguard
    have h1 : pr.1 ∈ g.map Prod.fst := (alist_lookup_isSome_iff g pr.1).mp hguard.1
    have h2 : pr.2 ∈ g.map Prod.fst := (alist_lookup_isSome_iff g pr.2).mp hguard.2
    have hfwd : ∀ p ∈ DJ.addFwd g pr, ∀ b ∈ p.2.neighbors, b ∈ g.map Prod.fst := by
      unfold DJ.addFwd
      split
      · exact h
      · intro p hp b hb
        rcases pushNbr_nbrs g pr.1 pr.2 p hp b hb with hb1 | ⟨q, hq, hbq⟩
        · rw [hb1]; exact h2
        · exact h q hq b hbq
    unfold DJ.addBack
    split
    · exact hfwd
    · split
      · exact hfwd
      · intro p hp b hb
        rcases pushNbr_nbrs (DJ.addFwd g pr) pr.2 pr.1 p hp b hb with hb1 | ⟨q, hq, hbq⟩
        · rw [hb1]; exact h1
        · exact hfwd q hq b hbq
  · exact h

/-- The invariant holds after folding `addWayStep` over any pair list. -/
theorem foldl_addWayStep_inv (ow : Bool) :
    ∀ (prs : List (String × String)) (g : DJ.DGraph),
      (∀ p ∈ g, ∀ b ∈ p.2.neighbors, b ∈ g.map Prod.fst) →
      (∀ p ∈ prs.foldl (DJ.addWayStep ow) g, ∀ b ∈ p.2.neighbors,
        b ∈ (prs.foldl (DJ.addWayStep ow) g).map Prod.fst) ∧
      (prs.foldl (DJ.addWayStep ow) g).map Prod.fst = g.map Prod.fst := by
  intro prs
  induction prs with
  | nil => intro g h; exact ⟨h, rfl⟩
  | cons pr rest ih =>
    intro g h
    simp only [List.foldl_cons]
    have step := addWayStep_inv ow pr g h
    have ihg := ih (DJ.addWayStep ow g pr) step
    exact ⟨ihg.1, ihg.2.trans (addWayStep_keys ow g pr)⟩

/-- The invariant holds after wiring all ways. -/
theorem foldl_ways_inv :
    ∀ (ways : List DJ.Way) (g : DJ.DGraph),
      (∀ p ∈ g, ∀ b ∈ p.2.neighbors, b ∈ g.map Prod.fst) →
      (∀ p ∈ ways.foldl
          (fun g2 w => (DJ.consecPairs w.nodes).foldl (DJ.addWayStep (w.oneway == some "yes")) g2) g,
        ∀ b ∈ p.2.neighbors,
        b ∈ (ways.foldl
          (fun g2 w => (DJ.consecPairs w.nodes).foldl (DJ.addWayStep (w.oneway == some "yes")) g2) g).map
          Prod.fst) ∧
      (ways.foldl
          (fun g2 w => (DJ.consecPairs w.nodes).foldl (DJ.addWayStep (w.oneway == some "yes")) g2) g).map
          Prod.fst = g.map Prod.fst := by
  intro ways
  induction ways with
  | nil => intro g h; exact ⟨h, rfl⟩
  | cons w rest ih =>
    intro g h
    simp only [List.foldl_cons]
    have step := foldl_addWayStep_inv (w.oneway == some "yes") (DJ.consecPairs w.nodes) g h
    have ihg := ih _ step.1
    exact ⟨ihg.1, ihg.2.trans step.2⟩

/-- C5 (amended): after the dijkstra-variant build, every retained node
has at least one neighbour, and every neighbour id refers to one of the
input OSM nodes (the pre-filter node set) — but, as the counterexample
shows, not necessarily to a node that survived the isolated-node
filter. -/
theorem c5_build_properties (osm : List (String × Point)) (ways : List DJ.Way)
    (p : String × DJ.DNode) (hp : p ∈ DJ.buildGraph osm ways) :
    p.2.neighbors ≠ [] ∧ ∀ b ∈ p.2.neighbors, b ∈ osm.map Prod.fst := by
  unfold DJ.buildGraph at hp
  have hmem := List.mem_of_mem_filter hp
  have hpred := List.of_mem_filter hp
  have hinit : ∀ q ∈ osm.map (fun e => (e.1, (⟨e.2, []⟩ : DJ.DNode))),
      ∀ b ∈ q.2.neighbors, b ∈ (osm.map (fun e => (e.1, (⟨e.2, []⟩ : DJ.DNode)))).map Prod.fst := by
    intro q hq b hb
    rw [List.mem_map] at hq
    rcases hq with ⟨e, _, heq⟩
    subst heq
    simp at hb
  have hini_keys : (osm.map (fun e => (e.1, (⟨e.2, []⟩ : DJ.DNode)))).map Prod.fst =
      osm.map Prod.fst := by
    rw [List.map_map]
    rfl
  have hmain := foldl_ways_inv ways (osm.map (fun e => (e.1, (⟨e.2, []⟩ : DJ.DNode)))) hinit
  constructor
  · intro hcon
    rw [hcon] at hpred
    simp at hpred
  · intro b hb
    have := hmain.1 p hmem b hb
    rw [hmain.2, hini_keys] at this
    exact this

/-- Witness for C5 (amended) on a concrete two-way, then one-way
build. -/
theorem c5_build_properties_witness :
    (("1", (⟨⟨0, 0⟩, ["2"]⟩ : DJ.DNode)).2.neighbors ≠ [] ∧
      ∀ b ∈ ("1", (⟨⟨0, 0⟩, ["2"]⟩ : DJ.DNode)).2.neighbors,
        b ∈ [("1", (⟨0, 0⟩ : Point)), ("2", ⟨0, 1⟩)].map Prod.fst) :=
  c5_build_properties [("1", ⟨0, 0⟩), ("2", ⟨0, 1⟩)] [⟨["1", "2"], some "yes", none⟩]
    ("1", ⟨⟨0, 0⟩, ["2"]⟩) (by decide)

/-- Counterexample to C5 as stated: building from a single one-way way
`1 → 2`, node "2" ends with no neighbours and is filtered out, yet the
surviving node "1" still lists "2" as a neighbour — the neighbour map
references an id that does not exist in the graph. -/
theorem c5_neighbor_closure_cex :
    DJ.neighborClosed (DJ.buildGraph [("1", ⟨0, 0⟩), ("2", ⟨0, 1⟩)]
      [⟨["1", "2"], some "yes", none⟩]) = false := by
  decide

/-! ## Claim C7: the nearest-node search -/

/-- The last-resort fold yields a value whenever it starts with one or
scans at least one node. -/
theorem lastResort_foldl_isSome (dOracle : Point → Point → ℚ) (p : Point) :
    ∀ (l : P004.Graph) (b : Option (ℚ × String)),
      (b.isSome ∨ l ≠ []) →
      (l.foldl (fun best e =>
        match best with
        | none => some (dOracle p e.2.point, e.1)
        | some b2 =>
          if dOracle p e.2.point < b2.1 then some (dOracle p e.2.point, e.1) else b2) b).isSome := by
  intro l
  induction l with
  | nil =>
    intro b hb
    rcases hb with h | h
    · simpa using h
    · simp at h
  | cons x xs ih =>
    intro b hb
    simp only [List.foldl_cons]
    refine ih _ (Or.inl ?_)
    cases b with
    | none => simp
    | some b2 =>
      simp only
      split <;> simp

/-- The last resort finds a node whenever the graph is non-empty. -/
theorem lastResortScan_isSome (dOracle : Point → Point → ℚ) (st : P004.PFState)
    (p : Point) (h : st.nodes ≠ []) :
    (P004.lastResortScan dOracle st p).isSome := by
  unfold P004.lastResortScan
  obtain ⟨v, hv⟩ := Option.isSome_iff_exists.mp
    (lastResort_foldl_isSome dOracle p st.nodes none (Or.inr h))
  rw [hv]
  rfl

/-- The search succeeds whenever the finder is initialized with OSM data
and the graph is non-empty. -/
theorem findNearestOsmNode_isSome (dOracle : Point → Point → ℚ) (st : P004.PFState)
    (p : Point) (r : ℚ) (hinit : st.isInit = true) (hosm : st.osmNodes ≠ [])
    (hnodes : st.nodes ≠ []) :
    (P004.findNearestOsmNode dOracle st p r).isSome := by
  unfold P004.findNearestOsmNode
  rw [hinit]
  have hemp : st.osmNodes.isEmpty = false := by
    cases hos : st.osmNodes with
    | nil => exact absurd hos hosm
    | cons a b => simp [hos]
  rw [hemp]
  simp only [Bool.not_true, Bool.false_or, Bool.false_eq_true, if_false]
  cases htr : P004.tryRadii dOracle st (P004.graphNodesInWays st.osmWays) p
      (P004.radiiList r) with
  | some id => simp
  | none => exact lastResortScan_isSome dOracle st p hnodes

/-- C7: the nearest-node search returns no result when the finder is
uninitialized or has no OSM data; it returns a node id whenever it is
initialized with OSM data and a non-empty graph (the last resort scans
the whole graph); and a no-node failure implies the finder was
uninitialized or its OSM data or graph was empty.  Stated for every
metric oracle, hence for the source's haversine metric. -/
theorem c7_findNearestOsmNode_spec (dOracle : Point → Point → ℚ) (st : P004.PFState)
    (p : Point) (r : ℚ) :
    ((st.isInit = false ∨ st.osmNodes = []) →
      P004.findNearestOsmNode dOracle st p r = none) ∧
    (st.isInit = true → st.osmNodes ≠ [] → st.nodes ≠ [] →
      (P004.findNearestOsmNode dOracle st p r).isSome) ∧
    (P004.findNearestOsmNode dOracle st p r = none →
      st.isInit = false ∨ st.osmNodes = [] ∨ st.nodes = []) := by
  refine ⟨?_, ?_, ?_⟩
  · intro h
    unfold P004.findNearestOsmNode
    rcases h with h | h
    · rw [h]
      simp
    · rw [h]
      simp
  · exact findNearestOsmNode_isSome dOracle st p r
  · intro hres
    by_cases hinit : st.isInit = true
    · by_cases hosm : st.osmNodes = []
      · exact Or.inr (Or.inl hosm)
      · by_cases hnodes : st.nodes = []
        · exact Or.inr (Or.inr hnodes)
        · have hsome := findNearestOsmNode_isSome dOracle st p r hinit hosm hnodes
          rw [hres] at hsome
          simp at hsome
    · exact Or.inl (by simpa using hinit)

/-- Witness for C7: on a concrete initialized two-node state the search
returns a node, and on the uninitialized state it fails. -/
theorem c7_findNearestOsmNode_spec_witness :
    (P004.findNearestOsmNode (fun _ _ => 1)
      ⟨true, [("5", ⟨0, 0⟩)], [["5"]], [("osm_5", ⟨⟨0, 0⟩, []⟩)]⟩ ⟨0, 0⟩ 500).isSome ∧
    P004.findNearestOsmNode (fun _ _ => 1)
      ⟨false, [("5", ⟨0, 0⟩)], [["5"]], [("osm_5", ⟨⟨0, 0⟩, []⟩)]⟩ ⟨0, 0⟩ 500 = none := by
  constructor
  · exact (c7_findNearestOsmNode_spec (fun _ _ => 1)
      ⟨true, [("5", ⟨0, 0⟩)], [["5"]], [("osm_5", ⟨⟨0, 0⟩, []⟩)]⟩ ⟨0, 0⟩ 500).2.1
      rfl (by decide) (by decide)
  · exact (c7_findNearestOsmNode_spec (fun _ _ => 1)
      ⟨false, [("5", ⟨0, 0⟩)], [["5"]], [("osm_5", ⟨⟨0, 0⟩, []⟩)]⟩ ⟨0, 0⟩ 500).1
      (Or.inl rfl)

/-! ## Claim C10: the synthetic demo grid fallback -/

/-- Lookup commutes with a value-only map. -/
theorem alist_lookup_map {β γ : Type} (l : List (String × β)) (f : β → γ) (a : String) :
    ((l.map (fun e => (e.1, f e.2))).lookup a) = (l.lookup a).map f := by
  induction l with
  | nil => simp
  | cons x xs ih =>
    cases x with
    | mk x1 x2 =>
      by_cases hx : a == x1
      · simp [List.lookup, hx]
      · rw [Bool.not_eq_true] at hx
        simp [List.lookup, hx, ih]

/-- A node's neighbour list is its adjacency-table entry. -/
theorem nbrsOf_adjTable (g : DJ.DGraph) (a : String) :
    DJ.nbrsOf g a = ((DJ.adjTable g).lookup a).getD [] := by
  unfold DJ.nbrsOf DJ.adjTable
  rw [alist_lookup_map]
  cases g.lookup a <;> rfl

/-- The adjacency table of the demo network does not depend on the
centre point. -/
theorem adjTable_demo (c : Point) : DJ.adjTable (DJ.createDemoNetwork c) = DJ.demoAdj := by
  simp only [DJ.adjTable, DJ.createDemoNetwork, DJ.demoAdj, List.map_map]
  rfl

/-- The id list of the demo network does not depend on the centre
point. -/
theorem keys_demo (c : Point) : (DJ.createDemoNetwork c).map Prod.fst = DJ.demoIds := by
  simp only [DJ.createDemoNetwork, DJ.demoIds, List.map_map]
  rfl

/-- Adjacency in terms of the adjacency table. -/
theorem dadj_adjTable (g : DJ.DGraph) (a b : String) :
    DJ.dadj g a b = (((DJ.adjTable g).lookup a).getD []).contains b := by
  unfold DJ.dadj
  rw [nbrsOf_adjTable]

/-- Soundness of the executable reachability: every id it returns
satisfies any property that holds on the seeds and is closed under the
table's edges. -/
theorem dreachAux_sound (adj : List (String × List String)) (P : String → Prop)
    (hP : ∀ x y, P x → (((adj.lookup x).getD []).contains y = true) → P y) :
    ∀ (fuel : Nat) (q vis : List String),
      (∀ x ∈ q, P x) → (∀ x ∈ vis, P x) →
      ∀ x ∈ DJ.dreachAux adj fuel q vis, P x := by
  intro fuel
  induction fuel with
  | zero =>
    intro q vis _ hvis x hx
    simp only [DJ.dreachAux] at hx
    exact hvis x hx
  | succ n ih =>
    intro q vis hq hvis
    cases q with
    | nil =>
      intro x hx
      simp only [DJ.dreachAux] at hx
      exact hvis x hx
    | cons cq rest =>
      simp only [DJ.dreachAux]
      cases hc : adj.lookup cq with
      | none => exact ih rest vis (fun x hx => hq x (List.mem_cons_of_mem _ hx)) hvis
      | some nbrs =>
        have hnb : ∀ b ∈ nbrs, P b := by
          intro b hb
          refine hP cq b (hq cq (List.mem_cons_self _ _)) ?_
          rw [hc]
          simpa using hb
        have hfold : ∀ (l : List String) (qv : List String × List String),
            (∀ b ∈ l, P b) → (∀ x ∈ qv.1, P x) → (∀ x ∈ qv.2, P x) →
            (∀ x ∈ (l.foldl (fun qv2 b => if b ∈ qv2.2 then qv2
                else (qv2.1 ++ [b], b :: qv2.2)) qv).1, P x) ∧
            (∀ x ∈ (l.foldl (fun qv2 b => if b ∈ qv2.2 then qv2
                else (qv2.1 ++ [b], b :: qv2.2)) qv).2, P x) := by
          intro l
          induction l with
          | nil => intro qv _ h1 h2; exact ⟨h1, h2⟩
          | cons b bs ihl =>
            intro qv hl h1 h2
            simp only [List.foldl_cons]
            by_cases hbv : b ∈ qv.2
            · rw [if_pos hbv]
              exact ihl _ (fun x hx => hl x (List.mem_cons_of_mem _ hx)) h1 h2
            · rw [if_neg hbv]
              refine ihl _ (fun x hx => hl x (List.mem_cons_of_mem _ hx)) ?_ ?_
              · intro x hx
                rcases List.mem_append.mp hx with h3 | h3
                · exact h1 x h3
                · simp at h3
                  rw [h3]
                  exact hl b (List.mem_cons_self _ _)
              · intro x hx
                rcases List.mem_cons.mp hx with h3 | h3
                · rw [h3]
                  exact hl b (List.mem_cons_self _ _)
                · exact h2 x h3
        cases hqv2 : nbrs.foldl (fun qv2 b => if b ∈ qv2.2 then qv2
            else (qv2.1 ++ [b], b :: qv2.2)) (rest, vis) with
        | mk q2 vis2 =>
          have hres := hfold nbrs (rest, vis) hnb
            (fun x hx => hq x (List.mem_cons_of_mem _ hx)) hvis
          rw [hqv2] at hres
          dsimp only
          rw [hqv2]
          exact ih q2 vis2 hres.1 hres.2

/-- Every id in `dreachFrom adj a` is reachable from `a` along the
table. -/
theorem dreachFrom_sound (adj : List (String × List String)) (a : String) :
    ∀ x ∈ DJ.dreachFrom adj a,
      Relation.ReflTransGen
        (fun u v => (((adj.lookup u).getD []).contains v) = true) a x := by
  unfold DJ.dreachFrom
  refine dreachAux_sound adj _ ?_ _ [a] [a] ?_ ?_
  · intro x y hx hxy
    exact Relation.ReflTransGen.tail hx hxy
  · intro x hx
    simp at hx
    rw [hx]
  · intro x hx
    simp at hx
    rw [hx]

/-- The demo grid is connected: the BFS from each id covers all ids. -/
theorem demoAdj_connected :
    (DJ.demoIds.all (fun a => DJ.demoIds.all
      (fun b => (DJ.dreachFrom DJ.demoAdj a).contains b))) = true := by
  decide

/-- The path built by the helper's reconstruction is never empty when
the accumulator is non-empty. -/
theorem djBuildPath_ne_nil (prev : String → Option String) :
    ∀ (fuel : Nat) (cur : Option String) (acc : List String), acc ≠ [] →
      DJ.djBuildPath prev fuel cur acc ≠ [] := by
  intro fuel
  induction fuel with
  | zero =>
    intro cur acc h
    cases cur <;> simpa [DJ.djBuildPath] using h
  | succ n ih =>
    intro cur acc h
    cases cur with
    | none => simpa [DJ.djBuildPath] using h
    | some cq =>
      simp only [DJ.djBuildPath]
      exact ih (prev cq) (cq :: acc) (by simp)

/-- The helper `dijkstra`'s reconstructed path always contains the
destination. -/
theorem dijkstra_path_ne_nil (wg : List (String × List (String × ℚ)))
    (startNode endNode : String) :
    (DJ.dijkstra wg startNode endNode).2 ≠ [] := by
  unfold DJ.dijkstra
  cases hdp : DJ.djLoop wg endNode (DJ.djFuel wg) [(startNode, 0)]
      (fun x => if x = startNode then some 0 else none) (fun _ => none) with
  | mk dist prev =>
    simp only
    simp only [DJ.djBuildPath]
    exact djBuildPath_ne_nil prev wg.length (prev endNode) [endNode] (by simp)

/-- The dijkstra-variant `findShortestPath` succeeds whenever both nodes
exist. -/
theorem dj_findShortestPath_isSome (d : Point → Point → ℚ) (g : DJ.DGraph)
    (a b : String) (ha : a ∈ g.map Prod.fst) (hb : b ∈ g.map Prod.fst) :
    (DJ.findShortestPath d g a b).isSome := by
  unfold DJ.findShortestPath
  rw [if_neg]
  · cases hdk : DJ.dijkstra (DJ.convertGraph d g) a b with
    | mk dres path =>
      have hne : path ≠ [] := by
        have := dijkstra_path_ne_nil (DJ.convertGraph d g) a b
        rw [hdk] at this
        exact this
      simp only
      rw [if_neg]
      · simp
      · simpa using hne
  · rw [not_or]
    constructor
    · intro hcon
      have h2 := (alist_lookup_isSome_iff g a).mpr ha
      rw [Option.isNone_iff_eq_none] at hcon
      rw [hcon] at h2
      simp at h2
    · intro hcon
      have h2 := (alist_lookup_isSome_iff g b).mpr hb
      rw [Option.isNone_iff_eq_none] at hcon
      rw [hcon] at h2
      simp at h2

/-- Index bounds of the demo grid. -/
theorem gridIndices_bounds : ∀ p ∈ DJ.gridIndices, p.1 < 5 ∧ p.2 < 5 := by
  decide

/-- C10: the fallback network built by the catch branch of
`fetchRoadNetwork` is a 5×5 grid of 25 nodes around the requested centre
(every node within 0.0025° of it per coordinate), each node's neighbours
are exactly its orthogonally adjacent grid nodes, the grid is connected
(every node reachable from every other), and pathfinding between any two
grid nodes yields a result — for every metric oracle, in particular the
haversine metric the source uses. -/
theorem c10_demo_network_fallback (c : Point) (d : Point → Point → ℚ) :
    (DJ.createDemoNetwork c).length = 25 ∧
    (∀ e ∈ DJ.createDemoNetwork c,
      |e.2.point.latitude - c.latitude| ≤ 1 / 400 ∧
      |e.2.point.longitude - c.longitude| ≤ 1 / 400) ∧
    (∀ i ∈ List.range 5, ∀ j ∈ List.range 5, ∀ i2 ∈ List.range 5, ∀ j2 ∈ List.range 5,
      (DJ.gridId i2 j2 ∈ DJ.nbrsOf (DJ.createDemoNetwork c) (DJ.gridId i j) ↔
        (i2 = i ∧ (j2 = j + 1 ∨ j2 + 1 = j)) ∨ (j2 = j ∧ (i2 = i + 1 ∨ i2 + 1 = i)))) ∧
    (∀ a ∈ (DJ.createDemoNetwork c).map Prod.fst,
      ∀ b ∈ (DJ.createDemoNetwork c).map Prod.fst,
        DJ.DReach (DJ.createDemoNetwork c) a b) ∧
    (∀ a ∈ (DJ.createDemoNetwork c).map Prod.fst,
      ∀ b ∈ (DJ.createDemoNetwork c).map Prod.fst,
        (DJ.findShortestPath d (DJ.createDemoNetwork c) a b).isSome) := by
  refine ⟨?_, ?_, ?_, ?_, ?_⟩
  · simp only [DJ.createDemoNetwork, List.length_map]
    decide
  · intro e he
    simp only [DJ.createDemoNetwork, List.mem_map] at he
    obtain ⟨ij, hij, rfl⟩ := he
    have hb := gridIndices_bounds ij hij
    have hi : (ij.1 : ℚ) ≤ 4 := by exact_mod_cast Nat.lt_succ_iff.mp hb.1
    have hj : (ij.2 : ℚ) ≤ 4 := by exact_mod_cast Nat.lt_succ_iff.mp hb.2
    have hi0 : (0 : ℚ) ≤ (ij.1 : ℚ) := Nat.cast_nonneg _
    have hj0 : (0 : ℚ) ≤ (ij.2 : ℚ) := Nat.cast_nonneg _
    dsimp only
    constructor
    · have harith : c.latitude + ((ij.1 : ℚ) - 5 / 2) * (1 / 1000) - c.latitude =
          ((ij.1 : ℚ) - 5 / 2) * (1 / 1000) := by ring
      rw [harith, abs_le]
      constructor <;> nlinarith
    · have harith : c.longitude + ((ij.2 : ℚ) - 5 / 2) * (1 / 1000) - c.longitude =
          ((ij.2 : ℚ) - 5 / 2) * (1 / 1000) := by ring
      rw [harith, abs_le]
      constructor <;> nlinarith
  · have hn : ∀ a, DJ.nbrsOf (DJ.createDemoNetwork c) a = (DJ.demoAdj.lookup a).getD [] := by
      intro a
      rw [nbrsOf_adjTable, adjTable_demo]
    simp only [hn]
    decide
  · intro a ha b hb
    rw [keys_demo] at ha hb
    have hrel : (fun x y => DJ.dadj (DJ.createDemoNetwork c) x y = true) =
        (fun x y => ((DJ.demoAdj.lookup x).getD []).contains y = true) := by
      funext x y
      rw [dadj_adjTable, adjTable_demo]
    unfold DJ.DReach
    rw [hrel]
    have hcont := List.all_eq_true.mp (List.all_eq_true.mp demoAdj_connected a ha) b hb
    have hmem : b ∈ DJ.dreachFrom DJ.demoAdj a := by simpa using hcont
    exact dreachFrom_sound DJ.demoAdj a b hmem
  · intro a ha b hb
    exact dj_findShortestPath_isSome d (DJ.createDemoNetwork c) a b ha hb

/-- Witness for C10 at the origin centre, the zero oracle and the
opposite grid corners. -/
theorem c10_demo_network_fallback_witness :
    DJ.DReach (DJ.createDemoNetwork ⟨0, 0⟩) "0-0" "4-4" ∧
    (DJ.findShortestPath (fun _ _ => 0) (DJ.createDemoNetwork ⟨0, 0⟩) "0-0" "4-4").isSome := by
  constructor
  · exact (c10_demo_network_fallback ⟨0, 0⟩ (fun _ _ => 0)).2.2.2.1 "0-0"
      (by rw [keys_demo]; decide) "4-4" (by rw [keys_demo]; decide)
  · exact (c10_demo_network_fallback ⟨0, 0⟩ (fun _ _ => 0)).2.2.2.2 "0-0"
      (by rw [keys_demo]; decide) "4-4" (by rw [keys_demo]; decide)

/-! ## Counterexamples on the dijkstra-helper variant (claims C1 and C6) -/

/-- Counterexample to C1 as stated: on the graph the dijkstra.ts builder
produces from two disconnected two-way ways `1—2` and `3—4`, the
destination "3" is unreachable from the source "1", yet that variant's
`findShortestPath` does *not* fail — it returns a result anyway (a
degenerate record whose path is just `["3"]`, not starting at the
source, with distance `Infinity`): the helper `dijkstra` always returns
a record containing the destination, and the only guard,
`path.length === 0`, never fires. -/
theorem c1_dijkstra_variant_cex :
    ¬ DJ.DReach DJ.c1graph "1" "3" ∧
    (DJ.findShortestPath (fun _ _ => 1) DJ.c1graph "1" "3").isSome = true := by
  constructor
  · intro h
    unfold DJ.DReach at h
    have hinv : ∀ x, Relation.ReflTransGen
        (fun u v => DJ.dadj DJ.c1graph u v = true) "1" x → x = "1" ∨ x = "2" := by
      intro x hx
      induction hx with
      | refl => exact Or.inl rfl
      | @tail b c2 hab hbc ih =>
        rcases ih with h1 | h1 <;> subst h1
        · have h3 : c2 ∈ DJ.nbrsOf DJ.c1graph "1" := by
            simpa [DJ.dadj] using hbc
          rw [show DJ.nbrsOf DJ.c1graph "1" = ["2"] from by decide] at h3
          simp at h3
          exact Or.inr h3
        · have h3 : c2 ∈ DJ.nbrsOf DJ.c1graph "2" := by
            simpa [DJ.dadj] using hbc
          rw [show DJ.nbrsOf DJ.c1graph "2" = ["1"] from by decide] at h3
          simp at h3
          exact Or.inl h3
    rcases hinv "3" h with h1 | h1 <;> simp at h1
  · exact dj_findShortestPath_isSome (fun _ _ => 1) DJ.c1graph "1" "3"
      (by decide) (by decide)

/-- Counterexample to C6 as stated: a motorway-classed way with no
`oneway` tag is one-way by the claim's inference rule (`specOneWay`
holds), yet the dijkstra.ts builder — whose `isOneWay` tests only
`tags?.oneway === 'yes'` and ignores the road class — adds edges in
*both* directions for it. -/
theorem c6_dijkstra_oneway_cex :
    P004.specOneWay ⟨none, none⟩ "motorway" ∧
    DJ.buildGraph [("1", ⟨0, 0⟩), ("2", ⟨0, 1⟩)]
        [⟨["1", "2"], none, some "motorway"⟩] =
      [("1", ⟨⟨0, 0⟩, ["2"]⟩), ("2", ⟨⟨0, 1⟩, ["1"]⟩)] := by
  constructor
  · unfold P004.specOneWay
    right
    left
    decide
  · decide
